import Mathlib

/-!
Verification development for the "180 IQ game" solver (simplified JS solver).

The JavaScript source is embedded shallowly:
* JS strings are modelled as `List Char` (or Lean `String` where convenient),
* JS numbers reachable in this program are integers or `Infinity`, modelled by `JN`,
* the dynamically-typed `level` argument (a string such as "B","1","2","3", or a
  number after `Math.min(level, 2)`) is modelled by `JSv`,
* functions that can crash or diverge in JS are modelled in the `Option` monad,
  with `none` for "no result is ever produced" (exception or non-termination);
  the recursive solver additionally takes explicit fuel.
-/

set_option maxHeartbeats 1000000

namespace Igk

/-- Operator tokens of the solver: the JS strings
 `'+','-','*','/','^','sqrt','root','!'`. -/
inductive Op
  | add | sub | mul | div | pow | sqrt | root | fact
deriving DecidableEq, Repr

/-- An RPN token: a number or an operator (source mixes JS numbers and strings). -/
inductive Tok
  | num (v : Int)
  | op (o : Op)
deriving DecidableEq, Repr

/-- A JS numeric value reachable on the evaluator stack: an integer, or `Infinity`
(the bounded factorial returns `Infinity` outside `[0,10]`, and `evaluateRPN`
pushes that value unchecked). `NaN` never reaches the stack: every operator
result is checked with `Number.isInteger` before being pushed. -/
inductive JN
  | fin (z : Int)
  | inf
deriving DecidableEq, Repr

/-- `factorial` (source lines 5-13): `if (n < 0 || n > 10) return Infinity`,
otherwise the loop `for (i = 2; i <= n; i++) result *= i` starting from 1. -/
def factorial (n : Int) : JN :=
  if n < 0 || n > 10 then JN.inf
  else JN.fin ((List.range' 2 (n.toNat - 1)).foldl (fun a b => a * (b : Int)) 1)

/-- Largest `r` with `r ^ b ≤ a` (the integer part of the real `b`-th root,
for `b ≥ 1`). Executable by a linear scan. -/
def natRootFloor (b a : Nat) : Nat :=
  (List.range (a + 2)).foldl (fun acc r => if r ^ b ≤ a then r else acc) 0

/-- `Math.sqrt` followed by the `Number.isInteger` check (source lines 31-33):
`some r` when `v ≥ 0` and `r` is the exact integer square root of `v`. -/
def jsSqrtInt (v : Int) : Option Int :=
  if v < 0 then none
  else
    let r := natRootFloor 2 v.toNat
    if (r : Int) * r = v then some (r : Int) else none

/-- `Math.round (a ^ (1/b))` for `a ≥ 0`, `b ≥ 2`: the floor root, bumped by one
when the fractional part is at least one half, i.e. when `a ≥ (r0 + 1/2) ^ b`,
decided exactly as `2 ^ b * a ≥ (2 * r0 + 1) ^ b`. -/
def natRootRound (b a : Nat) : Nat :=
  let r0 := natRootFloor b a
  if (2 * r0 + 1) ^ b ≤ 2 ^ b * a then r0 + 1 else r0

/-- The source's tolerance test `Math.abs(res - Math.round(res)) > 0.00001`
for `res = a ^ (1/b)`, decided exactly over the integers:
`|a^(1/b) - r| ≤ 1/10^5` iff `(10^5 r - 1)^b ≤ 10^(5b) a ≤ (10^5 r + 1)^b`
(the lower bound is vacuous for `r = 0`). -/
def rootTolOK (b a r : Nat) : Bool :=
  (decide (r = 0) || decide ((10 ^ 5 * r - 1) ^ b ≤ 10 ^ (5 * b) * a)) &&
    decide (10 ^ (5 * b) * a ≤ (10 ^ 5 * r + 1) ^ b)

/-- The `root` computation for a finite radicand `a ≥ 0` and finite degree
`b ≥ 2` (source lines 57-62): round the real `b`-th root and accept it when it
is within `10⁻⁵` of the real root. -/
def jsRootFin (a b : Nat) : Option Nat :=
  let r := natRootRound b a
  if rootTolOK b a r then some r else none

/-- JS `Math.pow(a, b)` for the `'^'` case (source lines 53-56), including the
`> 10000` ceiling and the final `Number.isInteger` check; `none` is `return null`.
Covers the `Infinity` operand cases of JS semantics
(`pow(0, Infinity) = 0`, `pow(Infinity, 0) = 1`, `pow(Infinity, -n) = 0`,
`pow(±1, Infinity) = NaN`). -/
def jsPow : JN → JN → Option Int
  | JN.fin a, JN.fin b =>
    if 0 ≤ b then
      let v := a ^ b.toNat
      if v > 10000 then none else some v
    else if a = 1 then some 1
    else if a = -1 then some (if b % 2 = 0 then 1 else -1)
    else none
  | JN.fin a, JN.inf => if a = 0 then some 0 else none
  | JN.inf, JN.fin b => if b = 0 then some 1 else if b < 0 then some 0 else none
  | JN.inf, JN.inf => none

/-- One binary-operator application of `evaluateRPN` (source lines 42-65):
`a` was pushed first, `b` second; `none` is `return null`, from the operator's
own guard or from the final `Number.isInteger(res)` check (which also rejects
every `Infinity` or `NaN` result). -/
def applyBin : Op → JN → JN → Option Int
  | Op.add, JN.fin a, JN.fin b => some (a + b)
  | Op.add, _, _ => none
  | Op.sub, JN.fin a, JN.fin b => if a < b then none else some (a - b)
  | Op.sub, _, _ => none
  | Op.mul, JN.fin a, JN.fin b => some (a * b)
  | Op.mul, _, _ => none
  | Op.div, JN.fin a, JN.fin b =>
    if b = 0 ∨ Int.tmod a b ≠ 0 then none else some (Int.tdiv a b)
  | Op.div, JN.fin a, JN.inf => if a = 0 then some 0 else none
  | Op.div, JN.inf, _ => none
  | Op.pow, a, b => jsPow a b
  | Op.root, a, JN.fin b =>
    if b < 2 then none
    else
      match a with
      | JN.fin av =>
        if av < 0 then none
        else
          match jsRootFin av.toNat b.toNat with
          | some rr => some ((rr : Nat) : Int)
          | none => none
      | JN.inf => none
  | Op.root, a, JN.inf =>
    match a with
    | JN.fin av => if av < 0 then none else some 1
    | JN.inf => some 1
  | _, _, _ => none

/-- One token step of `evaluateRPN` (source lines 18-67). The stack is a list
with its head as the JS array's last element (`push`/`pop` end). `none` models
`return null`. The unary arms mirror lines 23-34, the binary arm lines 37-66. -/
def evalStep (stack : List JN) : Tok → Option (List JN)
  | Tok.num v => some (JN.fin v :: stack)
  | Tok.op Op.fact =>
    match stack with
    | [] => none
    | a :: rest =>
      match a with
      | JN.inf => none
      | JN.fin z => if z < 0 then none else some (factorial z :: rest)
  | Tok.op Op.sqrt =>
    match stack with
    | [] => none
    | a :: rest =>
      match a with
      | JN.inf => none
      | JN.fin z =>
        match jsSqrtInt z with
        | some r => some (JN.fin r :: rest)
        | none => none
  | Tok.op o =>
    match stack with
    | b :: a :: rest =>
      match applyBin o a b with
      | some r => some (JN.fin r :: rest)
      | none => none
    | _ => none

/-- `evaluateRPN` (source lines 16-71): fold the steps over the token list;
succeed only when exactly one value remains on the stack. -/
def evaluateRPN (rpn : List Tok) : Option JN :=
  match rpn.foldlM evalStep [] with
  | some [v] => some v
  | _ => none

example : evaluateRPN [Tok.num 3, Tok.num 5, Tok.op Op.add] = some (JN.fin 8) := by decide

example : evaluateRPN [Tok.num 11, Tok.op Op.fact] = some JN.inf := by decide

example : evaluateRPN [Tok.num 8, Tok.num 2, Tok.op Op.root] = none := by decide

example : evaluateRPN [Tok.num 16, Tok.num 2, Tok.op Op.root] = some (JN.fin 4) := by decide

example : evaluateRPN [Tok.num 6, Tok.num 3, Tok.op Op.div] = some (JN.fin 2) := by decide

example : evaluateRPN [Tok.num 6, Tok.num 4, Tok.op Op.div] = none := by decide

/-! ### JS strings: decimal printing and `Number()` parsing

JS strings are modelled as `List Char`. `natDigitsRev` produces the decimal
digits least-significant first (the fuel argument makes the `n / 10` recursion
structural; fuel `n` is always enough). -/

def natDigitsRev : Nat → Nat → List Nat
  | 0, _ => []
  | fuel + 1, n => if n = 0 then [] else n % 10 :: natDigitsRev fuel (n / 10)

/-- Decimal printing of a natural number, as JS `Number.prototype.toString`. -/
def natToChars (n : Nat) : List Char :=
  if n = 0 then ['0']
  else ((natDigitsRev n n).map (fun d => Char.ofNat (48 + d))).reverse

/-- Decimal printing of an integer, as JS `Number.prototype.toString`. -/
def intToChars (z : Int) : List Char :=
  if z < 0 then '-' :: natToChars z.natAbs else natToChars z.toNat

/-- Value of a string of decimal digits, most significant first. -/
def digitsToNat (l : List Char) : Nat :=
  l.foldl (fun a c => 10 * a + (c.toNat - 48)) 0

/-- Value of a least-significant-first digit list (proof helper relating
`natDigitsRev` to the number it prints). -/
def ofDigitsRev : List Nat → Nat
  | [] => 0
  | d :: ds => d + 10 * ofDigitsRev ds

/-- JS `Number(string)` on the strings this program produces: the empty string
is `0` (`Number("") === 0`), a `'-'`-led string is negated, otherwise the
digits are read. (Strings that JS would turn into `NaN` never occur here:
the argument is always the decimal printing of an integer, or empty.) -/
def jsNumberOfChars : List Char → Int
  | [] => 0
  | c :: rest =>
    if c = '-' then -(digitsToNat rest : Int) else (digitsToNat (c :: rest) : Int)

/-- JS `array.join(',')` over strings-as-char-lists. -/
def joinComma : List (List Char) → List Char
  | [] => []
  | [s] => s
  | s :: rest => s ++ ',' :: joinComma rest

/-- JS `string.split(',')`: never empty, `splitComma "" = [""]`. -/
def splitComma : List Char → List (List Char)
  | [] => [[]]
  | c :: rest =>
    if c = ',' then [] :: splitComma rest
    else
      match splitComma rest with
      | s :: ss => (c :: s) :: ss
      | [] => [[c]]

example : jsNumberOfChars (intToChars (-37)) = -37 := by decide

example : splitComma (joinComma [['1'], ['2', '3']]) = [['1'], ['2', '3']] := by decide

example : (splitComma (joinComma [])).map jsNumberOfChars = [0] := by decide

/-! ### Permutations (source lines 120-134) -/

/-- Insert `x` at every position `i ∈ [0, perm.length]` of `perm`
(the inner `for` loop of `getPermutations`, via `slice`). -/
def insertEverywhere (x : Int) (perm : List Int) : List (List Int) :=
  (List.range (perm.length + 1)).map (fun i => perm.take i ++ x :: perm.drop i)

/-- `getPermutations` (source lines 120-133). -/
def getPermutations : List Int → List (List Int)
  | [] => [[]]
  | x :: rest => (getPermutations rest).flatMap (insertEverywhere x)

/-- JS `new Set(...)` iteration order: first occurrences, in order. -/
def setDedupAux (seen : List (List Char)) : List (List Char) → List (List Char)
  | [] => []
  | x :: xs => if x ∈ seen then setDedupAux seen xs else x :: setDedupAux (x :: seen) xs

/-- `[...new Set(strings)]`. -/
def setDedup (l : List (List Char)) : List (List Char) :=
  setDedupAux [] l

/-- Source line 134: permutations joined with `','`, deduplicated through a JS
`Set`, then split back and mapped through `Number`. -/
def numPermutations (numbers : List Int) : List (List Int) :=
  (setDedup ((getPermutations numbers).map (fun p => joinComma (p.map intToChars)))).map
    (fun s => (splitComma s).map jsNumberOfChars)

example : numPermutations [2, 2, 3] = [[2, 2, 3], [2, 3, 2], [3, 2, 2]] := by decide

example : numPermutations [] = [[0]] := by decide

/-! ### Infix rendering (source lines 75-103) -/

/-- The `precedence` object of `rpnToInfix` (line 77); `sqrt`/`!` are not in it
(they are handled by the unary branch and never looked up). -/
def precedenceOf : Op → Nat
  | Op.add => 1
  | Op.sub => 1
  | Op.mul => 2
  | Op.div => 2
  | Op.pow => 3
  | Op.root => 3
  | Op.sqrt => 0
  | Op.fact => 0

/-- The single-character rendering of the four inline binary operators. -/
def opChar : Op → Char
  | Op.add => '+'
  | Op.sub => '-'
  | Op.mul => '*'
  | Op.div => '/'
  | Op.pow => '^'
  | _ => ' '

/-- An entry of the renderer's auxiliary stack: `(text, precedence)`. -/
structure InfixEnt where
  val : List Char
  prec : Nat
deriving DecidableEq, Repr

/-- One token step of the renderer (source lines 79-100). The head of the list
is the JS array's `push`/`pop` end. Popping an empty stack would crash in JS;
the renderer is only ever applied to expressions the evaluator accepted
(spec §4.3: rendering does not re-validate), so those arms return the stack
unchanged. -/
def rpnToInfixStep (stack : List InfixEnt) : Tok → List InfixEnt
  | Tok.num v => ⟨intToChars v, 4⟩ :: stack
  | Tok.op Op.fact =>
    match stack with
    | a :: rest => ⟨a.val ++ ['!'], 4⟩ :: rest
    | [] => []
  | Tok.op Op.sqrt =>
    match stack with
    | a :: rest => ⟨['s', 'q', 'r', 't', '('] ++ a.val ++ [')'], 4⟩ :: rest
    | [] => []
  | Tok.op o =>
    match stack with
    | b :: a :: rest =>
      let opPrec := precedenceOf o
      let valA := if a.prec < opPrec then '(' :: (a.val ++ [')']) else a.val
      let valB := if b.prec ≤ opPrec then '(' :: (b.val ++ [')']) else b.val
      let str :=
        if o = Op.root then valB ++ (' ' :: 'r' :: 'o' :: 'o' :: 't' :: ' ' :: valA)
        else valA ++ opChar o :: valB
      ⟨str, opPrec⟩ :: rest
    | _ => []

/-- `rpnToInfix` (source lines 75-103); the source returns `stack[0].val`,
the bottom of the stack (our list's last element). -/
def rpnToInfix (rpn : List Tok) : List Char :=
  match (rpn.foldl rpnToInfixStep []).getLast? with
  | some e => e.val
  | none => []

example : rpnToInfix [Tok.num 1, Tok.num 2, Tok.op Op.add, Tok.num 3, Tok.op Op.add] =
    ['1', '+', '2', '+', '3'] := by decide

example : rpnToInfix [Tok.num 7, Tok.num 3, Tok.num 1, Tok.op Op.sub, Tok.op Op.sub] =
    ['7', '-', '(', '3', '-', '1', ')'] := by decide

example : rpnToInfix [Tok.num 16, Tok.num 2, Tok.op Op.root, Tok.num 2, Tok.op Op.root] =
    "2 root 2 root 16".data := by decide

example : rpnToInfix [Tok.num 2, Tok.num 3, Tok.op Op.add, Tok.op Op.fact] =
    "2+3!".data := by decide

/-- `calculateScore` (source lines 294-301): 1 per token, with
`'^' → 5, 'sqrt' → 6, 'root' → 7, '!' → 8`. -/
def complexityWeight : Tok → Nat
  | Tok.op Op.pow => 5
  | Tok.op Op.sqrt => 6
  | Tok.op Op.root => 7
  | Tok.op Op.fact => 8
  | _ => 1

/-- `calculateScore` (source lines 294-301). -/
def calculateScore (rpn : List Tok) : Nat :=
  rpn.foldl (fun s t => s + complexityWeight t) 0

example : calculateScore [Tok.num 1, Tok.num 2, Tok.op Op.add, Tok.num 3, Tok.op Op.add,
    Tok.num 4, Tok.op Op.add] = 7 := by decide

/-! ### The dynamically-typed `level` argument -/

/-- A JS value as passed for `level`: one of the strings "B","1","2","3" at the
public interface, or a number after `Math.min(level, 2)` in the sigma
extension's recursive call (`NaN` for completeness of `Math.min` on
non-numeric strings). -/
inductive JSv
  | str (s : String)
  | num (n : Int)
  | nan
deriving DecidableEq, Repr

/-- JS `Number(string)` for the level strings: `none` models `NaN`. -/
def jsStringToNumber (s : String) : Option Int :=
  match s.data with
  | [] => some 0
  | '-' :: rest =>
    if rest ≠ [] ∧ rest.all (fun c => 48 ≤ c.toNat ∧ c.toNat ≤ 57) then
      some (-(digitsToNat rest : Int))
    else none
  | l =>
    if l.all (fun c => 48 ≤ c.toNat ∧ c.toNat ≤ 57) then some (digitsToNat l : Int)
    else none

/-- Numeric coercion of a `level` value; `none` models `NaN`. -/
def jsToNumber : JSv → Option Int
  | JSv.num n => some n
  | JSv.str s => jsStringToNumber s
  | JSv.nan => none

/-- The JS comparison `level >= 2` (source line 219): the string is coerced to
a number; any comparison with `NaN` is false. -/
def jsGE2 : JSv → Bool
  | v => match jsToNumber v with
    | some n => 2 ≤ n
    | none => false

/-- JS strict equality `===` between level values: values of different types
are never strictly equal, and `NaN === NaN` is false. -/
def jsStrictEq : JSv → JSv → Bool
  | JSv.num a, JSv.num b => a = b
  | JSv.str a, JSv.str b => a = b
  | _, _ => false

/-- JS `Math.min(level, 2)` (source line 265): both arguments are coerced to
numbers; the result is a number (`NaN` when the coercion fails). -/
def jsMathMin2 (l : JSv) : JSv :=
  match jsToNumber l with
  | some v => JSv.num (min v 2)
  | none => JSv.nan

/-- JS property lookup key for `opsByLevel[level]`: object keys are strings,
numbers are coerced to their decimal string. -/
def levelKey : JSv → List Char
  | JSv.str s => s.data
  | JSv.num n => intToChars n
  | JSv.nan => ['N', 'a', 'N']

/-- `opsByLevel[level] || opsByLevel['B']` (source lines 108-114). -/
def opsForLevel (level : JSv) : List Op :=
  if levelKey level = ['B'] then [Op.add, Op.sub, Op.mul, Op.div]
  else if levelKey level = ['1'] then [Op.add, Op.sub, Op.mul, Op.div, Op.pow]
  else if levelKey level = ['2'] then
    [Op.add, Op.sub, Op.mul, Op.div, Op.pow, Op.sqrt, Op.root]
  else if levelKey level = ['3'] then
    [Op.add, Op.sub, Op.mul, Op.div, Op.pow, Op.sqrt, Op.root, Op.fact]
  else [Op.add, Op.sub, Op.mul, Op.div]

example : jsGE2 (JSv.str "2") = true := by decide

example : jsGE2 (JSv.str "B") = false := by decide

example : jsStrictEq (JSv.str "3") (JSv.num 3) = false := by decide

/-! ### Solution tracker (source lines 116-117, 282-301, 304-309) -/

/-- The `type` field of a solution record. -/
inductive SolType
  | normal
  | sigma
deriving DecidableEq, Repr

/-- The `sigma` payload `{start, end, body}` (the source's `end` is `stop`
here: `end` is a Lean keyword). -/
structure SigmaData where
  start : Int
  stop : Int
  body : List Char
deriving DecidableEq, Repr

/-- A solution record. The records built by `updateSolutions` carry
`expression`/`rpn`; the sigma record set at source line 274 has neither field,
hence the `Option`s. -/
structure Sol where
  value : Int
  expression : Option (List Char)
  rpn : Option (List Tok)
  type : SolType
  sigma : Option SigmaData
  score : Nat
deriving DecidableEq, Repr

/-- The `closest` record once it has been set (source line 285); `none` in
`SearchState` models the initial `{value: -Infinity, distance: Infinity}`
placeholder, which is returned as `null` (line 309). -/
structure Closest where
  value : Int
  expression : List Char
  distance : Nat
  rpn : List Tok
  type : SolType
  sigma : Option SigmaData
  score : Nat
deriving DecidableEq, Repr

/-- The tracker: the `solutions` JS `Map` in insertion order, and `closest`. -/
structure SearchState where
  solutions : List (Int × Sol)
  closest : Option Closest
deriving DecidableEq, Repr

/-- The result record (source line 309). -/
structure SearchResult where
  exactSolutions : List Sol
  closest : Option Closest
deriving DecidableEq, Repr

/-- JS `Map.prototype.set`: overwrite in place, or append. -/
def mapSet (k : Int) (v : Sol) : List (Int × Sol) → List (Int × Sol)
  | [] => [(k, v)]
  | (k', v') :: rest => if k' = k then (k, v) :: rest else (k', v') :: mapSet k v rest

/-- JS `Map.prototype.has`. -/
def mapHas (k : Int) (m : List (Int × Sol)) : Bool :=
  m.any (fun e => e.1 = k)

/-- `updateSolutions` (source lines 282-292).

* `value` is a JS number (`Infinity` when an unbounded factorial reached the
  final stack); for `Infinity` the distance is `Infinity`, so neither branch
  fires and the state is unchanged.
* `rpn` is `none` when a sigma record (which has no `rpn` field) is re-fed
  through the merge loop of the unary pass; reading it (for `rpnToInfix` or
  `calculateScore`) would crash in JS, modelled by `none`. -/
def updateSolutions (target : Int) (value : JN) (rpn : Option (List Tok)) (ty : SolType)
    (sigmaData : Option SigmaData) (st : SearchState) : Option SearchState :=
  match value with
  | JN.inf => some st
  | JN.fin v =>
    let distance := (v - target).natAbs
    let closer := match st.closest with
      | none => true
      | some c => distance < c.distance
    let st1 : Option SearchState :=
      if closer then
        match rpn with
        | none => none
        | some r =>
          some { st with closest := some ⟨v, rpnToInfix r, distance, r, ty, sigmaData,
            calculateScore r⟩ }
      else some st
    match st1 with
    | none => none
    | some st1 =>
      if v = target then
        if mapHas v st1.solutions then some st1
        else
          match rpn with
          | none => none
          | some r =>
            some { st1 with solutions := mapSet v ⟨v, some (rpnToInfix r), some r, ty,
              sigmaData, calculateScore r⟩ st1.solutions }
      else some st1

/-- Merge the exact solutions of a recursive sub-search into the outer tracker
(source lines 229 and 238). -/
def mergeExacts (target : Int) (subs : List Sol) (st : SearchState) : Option SearchState :=
  subs.foldlM
    (fun s sol => updateSolutions target (JN.fin sol.value) sol.rpn sol.type sol.sigma s) st

/-- Evaluate one candidate RPN and feed it to the tracker (source lines
202-203, 208-209, 213-214). -/
def tryCandidate (target : Int) (rpn : List Tok) (st : SearchState) : Option SearchState :=
  match evaluateRPN rpn with
  | some value => updateSolutions target value (some rpn) SolType.normal none st
  | none => some st

/-! ### Shape/operator enumeration (source lines 183-216) -/

/-- Structural core of `generateOpCombinations`: the source recursion
decreases `len - current.length`, made an explicit argument here so that the
definition is structural (and so computes in the kernel). -/
def genOpCombosAux (ops : List Op) : Nat → List Op → List (List Op)
  | 0, current => [current]
  | remaining + 1, current =>
    ops.flatMap (fun op => genOpCombosAux ops remaining (current ++ [op]))

/-- `generateOpCombinations` (source lines 183-192): all ordered assignments of
`len` operators drawn with repetition from `ops`, built by appending to
`current`. Every call site passes `current = []` with `len ≥ 0`, on which this
agrees with the source recursion (which guards on `current.length === length`
and would recurse forever if `current` were already longer). -/
def generateOpCombinations (ops : List Op) (len : Nat) (current : List Op) :
    List (List Op) :=
  genOpCombosAux ops (len - current.length) current

/-- The three candidate shapes for one permutation and one operator assignment
(source lines 198-215): the left-fold shape always, the `(a op b) op (c op d)`
shape for length 4, the `((a op b) op (c op d)) op e` shape for length 5.
All indexing is in range at the call sites (`combo` has length `p.length - 1`);
the `getD` defaults are never used. -/
def processCombo (target : Int) (p : List Int) (combo : List Op) (st : SearchState) :
    Option SearchState :=
  (tryCandidate target (p.map Tok.num ++ combo.map Tok.op) st).bind fun st =>
    (if p.length = 4 then
        tryCandidate target
          [Tok.num (p.getD 0 0), Tok.num (p.getD 1 0), Tok.op (combo.getD 0 Op.add),
           Tok.num (p.getD 2 0), Tok.num (p.getD 3 0), Tok.op (combo.getD 1 Op.add),
           Tok.op (combo.getD 2 Op.add)] st
      else some st).bind fun st =>
      if p.length = 5 then
        tryCandidate target
          [Tok.num (p.getD 0 0), Tok.num (p.getD 1 0), Tok.op (combo.getD 0 Op.add),
           Tok.num (p.getD 2 0), Tok.num (p.getD 3 0), Tok.op (combo.getD 1 Op.add),
           Tok.op (combo.getD 2 Op.add), Tok.num (p.getD 4 0), Tok.op (combo.getD 3 Op.add)] st
      else some st

/-- All shape candidates for one permutation (source lines 196-216). -/
def processCombosForPerm (target : Int) (ops : List Op) (p : List Int)
    (st : SearchState) : Option SearchState :=
  (generateOpCombinations ops (p.length - 1) []).foldlM
    (fun s c => processCombo target p c s) st

/-! ### Unary decoration pass (source lines 218-242) -/

/-- The data flow of one iteration of the unary loop (source lines 220-240):
`tempP` starts as a copy of `p`; the sqrt branch may overwrite `tempP[i]`
before the factorial branch reads it. Returns the argument lists of the two
potential recursive calls (`none` when the branch does not fire). -/
def unaryArgsAt (operators : List Op) (p : List Int) (i : Nat) :
    Option (List Int) × Option (List Int) :=
  let tempP := p
  let sqrtArg :=
    if operators.contains Op.sqrt then
      match jsSqrtInt (tempP.getD i 0) with
      | some r => some (tempP.set i r)
      | none => none
    else none
  let tempP1 := match sqrtArg with
    | some l => l
    | none => tempP
  let factArg :=
    if operators.contains Op.fact then
      match factorial (tempP1.getD i 0) with
      | JN.fin f => some (tempP1.set i f)
      | JN.inf => none
    else none
  (sqrtArg, factArg)

/-- The unary decoration pass for one permutation (source lines 218-242),
parametrised by the recursive search `search` (the fuel-indexed
`findSolutionsF` one fuel level down, with the same target and level). -/
def unaryPassWith (search : List Int → Option SearchResult) (target : Int)
    (operators : List Op) (p : List Int) (st : SearchState) : Option SearchState :=
  (List.range p.length).foldlM
    (fun s i =>
      let args := unaryArgsAt operators p i
      (match args.1 with
        | some newP =>
          (search newP).bind fun sub => mergeExacts target sub.exactSolutions s
        | none => some s).bind fun s =>
        match args.2 with
        | some newP =>
          (search newP).bind fun sub => mergeExacts target sub.exactSolutions s
        | none => some s)
    st

/-! ### Summation extension (source lines 245-279) -/

/-- `p.filter((_, idx) => idx !== i && idx !== j)`. -/
def filterIdxNe (p : List Int) (i j : Nat) : List Int :=
  (p.enum.filter (fun e => e.1 ≠ i ∧ e.1 ≠ j)).map (fun e => e.2)

/-- `for (let k = start; k <= end; k++) sum += k` (source lines 261-262),
for `start < stop`. -/
def sumRange (start stop : Int) : Int :=
  (List.range ((stop - start).toNat + 1)).foldl (fun acc k => acc + (start + k)) 0

/-- The body of the sigma loops for one permutation and one index pair
(source lines 252-275), parametrised by the recursive search `searchLow`
(the fuel-indexed `findSolutionsF` one fuel level down, with the same target
and level `Math.min(level, 2)`). The sub-search's exact solutions are
iterated over a loop whose body is commented out in the source, so only the
sub-search's termination matters; `sum === target` then sets the sigma record
unconditionally. -/
def sigmaStepWith (searchLow : List Int → Option SearchResult) (target : Int)
    (p : List Int) (i j : Nat) (st : SearchState) : Option SearchState :=
  if i = j then some st
  else
    let start := p.getD i 0
    let stop := p.getD j 0
    if start ≥ stop ∨ stop - start > 20 then some st
    else
      let remainingNums := filterIdxNe p i j
      let sum := sumRange start stop
      let newNums := remainingNums ++ [sum]
      (if newNums.length > 0 then
          (searchLow newNums).bind fun _ => some st
        else some st).bind fun st =>
        if sum = target then
          let sigSol : Sol :=
            ⟨target, none, none, SolType.sigma, some ⟨start, stop, ['i']⟩, 100⟩
          some { st with solutions := mapSet target sigSol st.solutions }
        else some st

/-- The whole sigma extension (source lines 246-279): both index loops over
every permutation. -/
def sigmaPassWith (searchLow : List Int → Option SearchResult) (target : Int)
    (perms : List (List Int)) (st : SearchState) : Option SearchState :=
  perms.foldlM
    (fun s p =>
      (List.range p.length).foldlM
        (fun s i =>
          (List.range p.length).foldlM (fun s j => sigmaStepWith searchLow target p i j s) s)
        s)
    st

/-- Final distillation (source lines 304-307): values of the map in insertion
order, filtered to the target, stably sorted by ascending score, first three. -/
def insertByScore (x : Sol) : List Sol → List Sol
  | [] => [x]
  | y :: ys => if x.score ≤ y.score then x :: y :: ys else y :: insertByScore x ys

/-- Stable ascending sort by score (JS `sort((a,b) => a.score - b.score)`). -/
def sortByScore : List Sol → List Sol
  | [] => []
  | x :: xs => insertByScore x (sortByScore xs)

/-- Source lines 304-309: build the returned record from the tracker. -/
def distill (target : Int) (st : SearchState) : SearchResult :=
  { exactSolutions :=
      (sortByScore (((st.solutions.map (fun e => e.2)).filter
        (fun s => s.value = target)))).take 3
    closest := st.closest }

/-- `findSolutions` (source lines 107-310), indexed by fuel: `none` models a
computation that does not complete (the source recurses without any
decreasing measure, and does diverge on some inputs — see the theorems
below). Each recursive self-invocation spends one unit of fuel. -/
def findSolutionsF : Nat → List Int → Int → JSv → Option SearchResult
  | 0, _, _, _ => none
  | Nat.succ fuel, numbers, target, level =>
    let operators := opsForLevel level
    let perms := numPermutations numbers
    (perms.foldlM
      (fun st p =>
        (processCombosForPerm target operators p st).bind fun st =>
          if jsGE2 level then
            unaryPassWith (fun nums => findSolutionsF fuel nums target level) target
              operators p st
          else some st)
      ⟨[], none⟩).bind fun st =>
      (if jsStrictEq level (JSv.num 3) then
          sigmaPassWith (fun nums => findSolutionsF fuel nums target (jsMathMin2 level))
            target perms st
        else some st).bind fun st =>
        some (distill target st)

/-! ### Specification-side predicates used by the theorems -/

/-- A stack value admitted by the (amended) evaluator invariant: a non-negative
integer, or the `Infinity` sentinel. -/
def jnOk : JN → Prop
  | JN.fin z => 0 ≤ z
  | JN.inf => True

/-- The value at position `i` that the factorial branch of the unary pass
actually reads: the source mutates `tempP[i]` in the sqrt branch before the
factorial branch runs, so this is the exact integer square root of `p[i]` when
one exists (and `sqrt` is available), else `p[i]` itself. -/
def unaryCurrentVal (operators : List Op) (p : List Int) (i : Nat) : Int :=
  if operators.contains Op.sqrt then
    match jsSqrtInt (p.getD i 0) with
    | some r => r
    | none => p.getD i 0
  else p.getD i 0

/-- The tracker invariant behind C9: every key of the `solutions` map is the
target (exact records are only ever stored for the target value), so the map
holds at most one entry. -/
def TrackerInv (target : Int) (st : SearchState) : Prop :=
  (∀ e ∈ st.solutions, e.1 = target) ∧ st.solutions.length ≤ 1

/-! ### C6: tokens of the rendered string, and the standard infix evaluator

The renderer (`rpnToInfix`) produces a string; C6 compares the RPN value with
the value a *standard infix evaluator* assigns to that string, "respecting the
stated precedence levels (+ - at 1, * / at 2, ^ root at 3, numbers and unary
results at 4) and left associativity".  The evaluator below follows the spec's
words: a tokenizer, then the shunting-yard evaluation, popping while the stack
operator's precedence is `≥` the incoming one (left associativity), applying
the postfix `!` immediately (precedence 4), with `sqrt(...)` and parentheses
as atoms.  Each operator carries the game's own arithmetic (`applyBin`), and a
rendered `d root a` means the `d`-th root of `a` (the renderer writes the
degree on the left). -/

/-- A token of the rendered infix string: a number literal, a binary operator
(`+ - * / ^ root`), postfix `!`, the `sqrt(` opener, or a parenthesis. -/
inductive ITok
  | num (n : Nat)
  | bop (o : Op)
  | bang
  | sqrtlpar
  | lpar
  | rpar
deriving DecidableEq, Repr

/-- Emit the pending number literal, if one is being accumulated. -/
def flushNum : Option Nat → List ITok → List ITok
  | none, ts => ts
  | some n, ts => ITok.num n :: ts

/-- Single-character tokens. -/
def tok1 : Char → Option ITok
  | '+' => some (ITok.bop Op.add)
  | '-' => some (ITok.bop Op.sub)
  | '*' => some (ITok.bop Op.mul)
  | '/' => some (ITok.bop Op.div)
  | '^' => some (ITok.bop Op.pow)
  | '!' => some ITok.bang
  | '(' => some ITok.lpar
  | ')' => some ITok.rpar
  | _ => none

/-- Tokenizer for rendered strings: accumulates maximal digit runs into number
literals, recognises the keywords `sqrt(` and `root`, skips spaces, and emits
single-character tokens; `none` on any character the renderer never writes. -/
def tokenizeAux : Option Nat → List Char → Option (List ITok)
  | pend, [] => some (flushNum pend [])
  | pend, 's' :: 'q' :: 'r' :: 't' :: '(' :: rest =>
    (tokenizeAux none rest).map (fun ts => flushNum pend (ITok.sqrtlpar :: ts))
  | pend, 'r' :: 'o' :: 'o' :: 't' :: rest =>
    (tokenizeAux none rest).map (fun ts => flushNum pend (ITok.bop Op.root :: ts))
  | pend, c :: rest =>
    if c.isDigit then tokenizeAux (some (10 * pend.getD 0 + (c.toNat - 48))) rest
    else if c = ' ' then (tokenizeAux none rest).map (fun ts => flushNum pend ts)
    else
      match tok1 c with
      | some t => (tokenizeAux none rest).map (fun ts => flushNum pend (t :: ts))
      | none => none

/-- A symbol on the shunting-yard operator stack: a pending binary operator, a
plain open parenthesis, or the `sqrt(` opener. -/
inductive StkSym
  | op (o : Op)
  | lpar
  | sqrtPar
deriving DecidableEq, Repr

/-- Postfix `!` with the game's semantics (the evaluator's `'!'` arm). -/
def bangStep : JN → Option JN
  | JN.inf => none
  | JN.fin z => if z < 0 then none else some (factorial z)

/-- `sqrt(...)` with the game's semantics (the evaluator's `'sqrt'` arm). -/
def sqrtStep : JN → Option JN
  | JN.inf => none
  | JN.fin z => (jsSqrtInt z).map JN.fin

/-- Apply a binary operator to `x` (textual left) and `y` (textual right) with
the game's arithmetic; a rendered `x root y` is the `x`-th root of `y` (the
renderer writes the degree first), all other operators read left-to-right. -/
def applyBOp (o : Op) (x y : JN) : Option JN :=
  if o = Op.root then (applyBin Op.root y x).map JN.fin
  else (applyBin o x y).map JN.fin

/-- Pop-and-apply stacked operators while their precedence is `≥ q` (left
associativity: an incoming operator of equal precedence forces the stacked one
to apply first); stops at a parenthesis or a lower-precedence operator. -/
def popWhileGE (q : Nat) : List JN → List StkSym → Option (List JN × List StkSym)
  | vals, StkSym.op o :: os =>
    if q ≤ precedenceOf o then
      match vals with
      | y :: x :: vs =>
        match applyBOp o x y with
        | some r => popWhileGE q (r :: vs) os
        | none => none
      | _ => none
    else some (vals, StkSym.op o :: os)
  | vals, os => some (vals, os)

/-- Pop-and-apply stacked operators down to the matching opener; a `sqrt(`
opener applies `sqrt` to the finished operand. -/
def popToParen : List JN → List StkSym → Option (List JN × List StkSym)
  | vals, StkSym.op o :: os =>
    match vals with
    | y :: x :: vs =>
      match applyBOp o x y with
      | some r => popToParen (r :: vs) os
      | none => none
    | _ => none
  | vals, StkSym.lpar :: os => some (vals, os)
  | vals, StkSym.sqrtPar :: os =>
    match vals with
    | v :: vs => (sqrtStep v).map (fun w => (w :: vs, os))
    | [] => none
  | _, [] => none

/-- One token of the standard (shunting-yard) infix evaluation. -/
def shuntStep : List JN × List StkSym → ITok → Option (List JN × List StkSym)
  | (vals, os), ITok.num n => some (JN.fin (n : Int) :: vals, os)
  | (vals, os), ITok.bang =>
    match vals with
    | v :: vs => (bangStep v).map (fun w => (w :: vs, os))
    | [] => none
  | (vals, os), ITok.bop o =>
    (popWhileGE (precedenceOf o) vals os).map (fun st => (st.1, StkSym.op o :: st.2))
  | (vals, os), ITok.sqrtlpar => some (vals, StkSym.sqrtPar :: os)
  | (vals, os), ITok.lpar => some (vals, StkSym.lpar :: os)
  | (vals, os), ITok.rpar => popToParen vals os

/-- Evaluate a token sequence: run the shunting steps, flush the remaining
operators, and require a single value and an empty operator stack. -/
def parseInfixToks (toks : List ITok) : Option JN :=
  (List.foldlM shuntStep ([], []) toks).bind fun st =>
    (popWhileGE 0 st.1 st.2).bind fun fst =>
      match fst with
      | ([v], []) => some v
      | _ => none

/-- The standard infix evaluator of C6: tokenize, then evaluate. -/
def parseInfix (s : List Char) : Option JN :=
  (tokenizeAux none s).bind parseInfixToks

example : parseInfix ['2', '+', '3', '!'] = some (JN.fin 8) := by decide

example : parseInfix "2 root 16".data = some (JN.fin 4) := by decide

example : parseInfix "7-(3-1)".data = some (JN.fin 5) := by decide

/-- Renderer-side conditions under which the round trip can hold, computed by
replaying the renderer's precedence stack: every `!` must decorate an operand
the renderer treats as atomic (precedence 4 — the renderer appends `!` without
parenthesising), and no `root` may take a precedence-3 radicand (the renderer
swaps the textual operands of `root` but not the parenthesisation rules, so a
precedence-3 radicand is printed bare on the right). -/
def renderOKStep (ps : List Nat) : Tok → Option (List Nat)
  | Tok.num _ => some (4 :: ps)
  | Tok.op Op.fact =>
    match ps with
    | p :: rest => if p = 4 then some (4 :: rest) else none
    | [] => none
  | Tok.op Op.sqrt =>
    match ps with
    | _ :: rest => some (4 :: rest)
    | [] => none
  | Tok.op o =>
    match ps with
    | _ :: pa :: rest =>
      if o = Op.root ∧ pa = 3 then none else some (precedenceOf o :: rest)
    | _ => none

/-- An RPN sequence whose rendering is unambiguous for a standard parser: see
`renderOKStep`. -/
def renderOK (rpn : List Tok) : Bool :=
  (List.foldlM renderOKStep [] rpn).isSome

/-- Continuations a rendered subterm can be followed by: nothing, an operator
character, `!`, a closing parenthesis, or the space before `root`. -/
def safeHead : List Char → Prop
  | [] => True
  | c :: _ => c ∈ ['+', '-', '*', '/', '^', '!', ')', ' ']

/-- The rendered text `T` tokenizes to `toks`, in any safe continuation. -/
def TokInv (T : List Char) (toks : List ITok) : Prop :=
  ∀ s, safeHead s → tokenizeAux none (T ++ s) = (tokenizeAux none s).map (fun ts => toks ++ ts)

/-- The shunting evaluation stops at `os` when reading an operator of
precedence `q`: the top of `os` is a parenthesis or a lower-precedence
operator (or the stack is empty). -/
def stopAt : List StkSym → Nat → Prop
  | StkSym.op o :: _, q => precedenceOf o < q
  | _, _ => True

/-- Apply the listed operators in order over the value stack. -/
def flushOps : List JN → List StkSym → Option (List JN)
  | vals, [] => some vals
  | vals, StkSym.op o :: rest =>
    match vals with
    | y :: x :: vs =>
      match applyBOp o x y with
      | some r => flushOps (r :: vs) rest
      | none => none
    | _ => none
  | _, _ => none

/-- Flushing the pending operators `pend` over the pending values `pvals`
produces the single value `v`, whatever lies below. -/
def PendInv (pvals : List JN) (pend : List StkSym) (v : JN) : Prop :=
  ∀ vals, flushOps (pvals ++ vals) pend = some (v :: vals)

/-- A rendered subterm of precedence `p` and value `v` behaves correctly under
the shunting evaluation: feeding its tokens from any state whose operator
stack stops below `p` pushes pending values and operators that flush to `v`;
a precedence-4 subterm is atomic (its value is simply pushed). -/
def ShInv (toks : List ITok) (p : Nat) (v : JN) : Prop :=
  ∃ pvals pend,
    (∀ s ∈ pend, ∃ o, s = StkSym.op o ∧ p ≤ precedenceOf o) ∧
    (p = 4 → pvals = [v] ∧ pend = []) ∧
    (∀ vals os, stopAt os p →
      List.foldlM shuntStep (vals, os) toks = some (pvals ++ vals, pend ++ os)) ∧
    PendInv pvals pend v

/-- The full correctness payload of one renderer-stack entry. -/
def GoodEntry (T : List Char) (p : Nat) (v : JN) : Prop :=
  1 ≤ p ∧ p ≤ 4 ∧ ∃ toks, TokInv T toks ∧ ShInv toks p v

/-- Pointwise `GoodEntry` between the renderer's stack and the evaluator's. -/
def GoodStack : List InfixEnt → List JN → Prop
  | [], [] => True
  | e :: rs, v :: vs => GoodEntry e.val e.prec v ∧ GoodStack rs vs
  | _, _ => False

end Igk

/-! ## Theorems -/

namespace Igk

/-! ### Generic `Option`/`foldlM` helpers -/

theorem option_foldlM_isSome {α β : Type} (f : β → α → Option β)
    (hf : ∀ s a, (f s a).isSome) :
    ∀ (l : List α) (s : β), (l.foldlM f s).isSome := by
  intro l
  induction l with
  | nil => intro s; rfl
  | cons a l ih =>
    intro s
    rw [List.foldlM_cons]
    obtain ⟨s1, hs1⟩ := Option.isSome_iff_exists.mp (hf s a)
    rw [hs1]
    exact ih s1

theorem option_foldlM_inv {α β : Type} (P : β → Prop) (f : β → α → Option β)
    (hf : ∀ s a s', P s → f s a = some s' → P s') :
    ∀ (l : List α) (s s' : β), P s → l.foldlM f s = some s' → P s' := by
  intro l
  induction l with
  | nil =>
    intro s s' hP h
    simp only [List.foldlM_nil, pure, Option.some.injEq] at h
    exact h ▸ hP
  | cons a l ih =>
    intro s s' hP h
    rw [List.foldlM_cons] at h
    obtain ⟨s1, h1, h2⟩ := Option.bind_eq_some.mp h
    exact ih s1 s' (hf s a s1 hP h1) h2

/-! ### C7: the division step -/

/-- C7: for non-negative integers `a` and `b` on the evaluator stack
(`a` pushed first), the binary `/` step succeeds iff `b ≠ 0` and
`a mod b = 0`, and then pushes exactly `a / b`. -/
theorem div_step_characterization (a b : Int) (ha : 0 ≤ a) (hb : 0 ≤ b)
    (rest : List JN) :
    evalStep (JN.fin b :: JN.fin a :: rest) (Tok.op Op.div) =
      if b ≠ 0 ∧ a % b = 0 then some (JN.fin (a / b) :: rest) else none := by
  obtain ⟨m, rfl⟩ := Int.eq_ofNat_of_zero_le ha
  obtain ⟨n, rfl⟩ := Int.eq_ofNat_of_zero_le hb
  have e1 : Int.tmod (m : Int) (n : Int) = ((m % n : Nat) : Int) := rfl
  have e2 : Int.tdiv (m : Int) (n : Int) = ((m / n : Nat) : Int) := rfl
  have e3 : (m : Int) % (n : Int) = ((m % n : Nat) : Int) := rfl
  have e4 : (m : Int) / (n : Int) = ((m / n : Nat) : Int) := rfl
  simp only [evalStep, applyBin, e1, e2, e3, e4, Nat.cast_eq_zero, ne_eq]
  by_cases hn : n = 0
  · simp [hn]
  · by_cases hm : m % n = 0
    · simp [hn, hm]
    · simp [hn, hm]

/-- Witness for C7 at `a = 6`, `b = 3`. -/
theorem div_step_characterization_witness :
    evalStep [JN.fin 3, JN.fin 6] (Tok.op Op.div) = some [JN.fin 2] := by
  have h := div_step_characterization 6 3 (by decide) (by decide) []
  rw [if_pos (by constructor <;> decide)] at h
  rw [h]
  decide

/-! ### C3: values reachable on the evaluator stack -/

theorem foldl_mul_ofNat_nonneg (l : List Nat) :
    ∀ c : Int, 0 ≤ c → 0 ≤ l.foldl (fun a b => a * (b : Int)) c := by
  induction l with
  | nil => intro c hc; exact hc
  | cons b bs ih =>
    intro c hc
    exact ih _ (mul_nonneg hc (Int.natCast_nonneg b))

theorem factorial_ok (z : Int) : jnOk (factorial z) := by
  unfold factorial
  split
  · trivial
  · exact foldl_mul_ofNat_nonneg _ 1 (by decide)

theorem applyBin_ok (o : Op) (a b : JN) (r : Int) (ha : jnOk a) (hb : jnOk b)
    (h : applyBin o a b = some r) : 0 ≤ r := by
  cases o <;> cases a <;> cases b <;>
      simp only [applyBin, jsPow] at h <;>
      try exact Option.noConfusion h
  case add.fin.fin av bv =>
    obtain rfl : av + bv = r := Option.some_inj.mp h
    exact add_nonneg ha hb
  case sub.fin.fin av bv =>
    rcases lt_or_le av bv with hlt | hle
    · rw [if_pos hlt] at h
      exact Option.noConfusion h
    · rw [if_neg (not_lt.mpr hle)] at h
      obtain rfl : av - bv = r := Option.some_inj.mp h
      simpa using hle
  case mul.fin.fin av bv =>
    obtain rfl : av * bv = r := Option.some_inj.mp h
    exact mul_nonneg ha hb
  case div.fin.fin av bv =>
    by_cases hcond : bv = 0 ∨ Int.tmod av bv ≠ 0
    · rw [if_pos hcond] at h
      exact Option.noConfusion h
    · rw [if_neg hcond] at h
      obtain rfl : Int.tdiv av bv = r := Option.some_inj.mp h
      obtain ⟨m, rfl⟩ := Int.eq_ofNat_of_zero_le ha
      obtain ⟨n, rfl⟩ := Int.eq_ofNat_of_zero_le hb
      show (0 : Int) ≤ Int.ofNat (m / n)
      exact Int.ofNat_nonneg _
  case div.fin.inf av =>
    by_cases hcond : av = 0
    · rw [if_pos hcond] at h
      obtain rfl : (0 : Int) = r := Option.some_inj.mp h
      decide
    · rw [if_neg hcond] at h
      exact Option.noConfusion h
  case pow.fin.fin av bv =>
    by_cases h1 : 0 ≤ bv
    · rw [if_pos h1] at h
      by_cases h2 : av ^ bv.toNat > 10000
      · rw [if_pos h2] at h
        exact Option.noConfusion h
      · rw [if_neg h2] at h
        obtain rfl : av ^ bv.toNat = r := Option.some_inj.mp h
        exact pow_nonneg ha _
    · rw [if_neg h1] at h
      by_cases h3 : av = 1
      · rw [if_pos h3] at h
        obtain rfl : (1 : Int) = r := Option.some_inj.mp h
        decide
      · rw [if_neg h3] at h
        by_cases h4 : av = -1
        · exfalso
          have hneg : (0 : Int) ≤ -1 := by
            rw [h4] at ha
            exact ha
          exact absurd hneg (by decide)
        · rw [if_neg h4] at h
          exact Option.noConfusion h
  case pow.fin.inf av =>
    by_cases h1 : av = 0
    · rw [if_pos h1] at h
      obtain rfl : (0 : Int) = r := Option.some_inj.mp h
      decide
    · rw [if_neg h1] at h
      exact Option.noConfusion h
  case pow.inf.fin bv =>
    by_cases h1 : bv = 0
    · rw [if_pos h1] at h
      obtain rfl : (1 : Int) = r := Option.some_inj.mp h
      decide
    · rw [if_neg h1] at h
      by_cases h2 : bv < 0
      · rw [if_pos h2] at h
        obtain rfl : (0 : Int) = r := Option.some_inj.mp h
        decide
      · rw [if_neg h2] at h
        exact Option.noConfusion h
  case root.fin.fin av bv =>
    by_cases h1 : bv < 2
    · rw [if_pos h1] at h
      exact Option.noConfusion h
    · rw [if_neg h1] at h
      by_cases h2 : av < 0
      · rw [if_pos h2] at h
        exact Option.noConfusion h
      · rw [if_neg h2] at h
        rcases hroot : jsRootFin av.toNat bv.toNat with _ | w <;> rw [hroot] at h
        · exact Option.noConfusion h
        · obtain rfl : ((w : Nat) : Int) = r := Option.some_inj.mp h
          exact Int.natCast_nonneg w
  case root.fin.inf av =>
    by_cases h1 : av < 0
    · rw [if_pos h1] at h
      exact Option.noConfusion h
    · rw [if_neg h1] at h
      obtain rfl : (1 : Int) = r := Option.some_inj.mp h
      decide
  case root.inf.fin bv =>
    by_cases h1 : bv < 2
    · rw [if_pos h1] at h
      exact Option.noConfusion h
    · rw [if_neg h1] at h
      exact Option.noConfusion h
  case root.inf.inf =>
    obtain rfl : (1 : Int) = r := Option.some_inj.mp h
    decide

theorem evalStep_ok (tok : Tok) (stack stack' : List JN)
    (hv : ∀ v, tok = Tok.num v → 0 ≤ v) (hs : ∀ x ∈ stack, jnOk x)
    (h : evalStep stack tok = some stack') : ∀ x ∈ stack', jnOk x := by
  have hbin : ∀ (o' : Op) (b a : JN) (rest : List JN),
      jnOk a → jnOk b → (∀ x ∈ rest, jnOk x) →
      (match applyBin o' a b with
        | some r => some (JN.fin r :: rest)
        | none => none) = some stack' →
      ∀ x ∈ stack', jnOk x := by
    intro o' b a rest hA hB hR hm
    rcases happ : applyBin o' a b with _ | r <;> rw [happ] at hm
    · exact Option.noConfusion hm
    · obtain rfl := Option.some_inj.mp hm
      intro x hx
      rcases List.mem_cons.mp hx with rfl | hx
      · exact applyBin_ok o' a b r hA hB happ
      · exact hR x hx
  have htail : ∀ (y : JN) (rest : List JN), (∀ x ∈ y :: rest, jnOk x) →
      ∀ x ∈ rest, jnOk x := fun y rest hyr x hx => hyr x (List.mem_cons_of_mem _ hx)
  cases tok with
  | num v =>
    simp only [evalStep, Option.some.injEq] at h
    subst h
    intro x hx
    rcases List.mem_cons.mp hx with rfl | hx
    · exact hv v rfl
    · exact hs x hx
  | op o =>
    cases o with
    | fact =>
      match stack, hs, h with
      | [], _, h => exact Option.noConfusion h
      | JN.inf :: rest, _, h => exact Option.noConfusion h
      | JN.fin z :: rest, hs, h =>
        simp only [evalStep] at h
        rcases lt_or_le z 0 with hz | hz
        · rw [if_pos hz] at h
          exact Option.noConfusion h
        · rw [if_neg (not_lt.mpr hz)] at h
          obtain rfl := Option.some_inj.mp h
          intro x hx
          rcases List.mem_cons.mp hx with rfl | hx
          · exact factorial_ok z
          · exact htail _ _ hs x hx
    | sqrt =>
      match stack, hs, h with
      | [], _, h => exact Option.noConfusion h
      | JN.inf :: rest, _, h => exact Option.noConfusion h
      | JN.fin z :: rest, hs, h =>
        simp only [evalStep] at h
        rcases hsq : jsSqrtInt z with _ | r <;> rw [hsq] at h
        · exact Option.noConfusion h
        · obtain rfl := Option.some_inj.mp h
          intro x hx
          rcases List.mem_cons.mp hx with rfl | hx
          · show jnOk (JN.fin r)
            unfold jsSqrtInt at hsq
            rcases lt_or_le z 0 with hz | hz
            · rw [if_pos hz] at hsq
              exact Option.noConfusion hsq
            · rw [if_neg (not_lt.mpr hz)] at hsq
              simp only at hsq
              split at hsq
              · obtain rfl := Option.some_inj.mp hsq
                exact Int.natCast_nonneg _
              · exact Option.noConfusion hsq
          · exact htail _ _ hs x hx
    | add =>
      match stack, hs, h with
      | [], _, h => exact Option.noConfusion h
      | [x], _, h => exact Option.noConfusion h
      | b :: a :: rest, hs, h =>
        exact hbin Op.add b a rest (hs a (by simp)) (hs b (by simp))
          (htail _ _ (htail _ _ hs)) (by simpa [evalStep] using h)
    | sub =>
      match stack, hs, h with
      | [], _, h => exact Option.noConfusion h
      | [x], _, h => exact Option.noConfusion h
      | b :: a :: rest, hs, h =>
        exact hbin Op.sub b a rest (hs a (by simp)) (hs b (by simp))
          (htail _ _ (htail _ _ hs)) (by simpa [evalStep] using h)
    | mul =>
      match stack, hs, h with
      | [], _, h => exact Option.noConfusion h
      | [x], _, h => exact Option.noConfusion h
      | b :: a :: rest, hs, h =>
        exact hbin Op.mul b a rest (hs a (by simp)) (hs b (by simp))
          (htail _ _ (htail _ _ hs)) (by simpa [evalStep] using h)
    | div =>
      match stack, hs, h with
      | [], _, h => exact Option.noConfusion h
      | [x], _, h => exact Option.noConfusion h
      | b :: a :: rest, hs, h =>
        exact hbin Op.div b a rest (hs a (by simp)) (hs b (by simp))
          (htail _ _ (htail _ _ hs)) (by simpa [evalStep] using h)
    | pow =>
      match stack, hs, h with
      | [], _, h => exact Option.noConfusion h
      | [x], _, h => exact Option.noConfusion h
      | b :: a :: rest, hs, h =>
        exact hbin Op.pow b a rest (hs a (by simp)) (hs b (by simp))
          (htail _ _ (htail _ _ hs)) (by simpa [evalStep] using h)
    | root =>
      match stack, hs, h with
      | [], _, h => exact Option.noConfusion h
      | [x], _, h => exact Option.noConfusion h
      | b :: a :: rest, hs, h =>
        exact hbin Op.root b a rest (hs a (by simp)) (hs b (by simp))
          (htail _ _ (htail _ _ hs)) (by simpa [evalStep] using h)

theorem evalFold_ok (toks : List Tok) :
    ∀ (stack : List JN), (∀ v, Tok.num v ∈ toks → 0 ≤ v) → (∀ x ∈ stack, jnOk x) →
      ∀ out, toks.foldlM evalStep stack = some out → ∀ x ∈ out, jnOk x := by
  induction toks with
  | nil =>
    intro stack _ hs out h
    simp only [List.foldlM_nil, pure, Option.some.injEq] at h
    exact h ▸ hs
  | cons tok toks ih =>
    intro stack hv hs out h
    rw [List.foldlM_cons] at h
    obtain ⟨s1, h1, h2⟩ := Option.bind_eq_some.mp h
    have hs1 : ∀ x ∈ s1, jnOk x :=
      evalStep_ok tok stack s1 (fun v hveq => hv v (hveq ▸ List.mem_cons_self _ _)) hs h1
    exact ih s1 (fun v hvmem => hv v (List.mem_cons_of_mem _ hvmem)) hs1 out h2

/-- C3 (counterexample to the claim as stated): applying `!` to the operand 11,
which is outside `[0,10]`, does not make the evaluation fail — the evaluator
returns the `Infinity` sentinel as its value (which is not a non-negative
integer). -/
theorem evaluateRPN_bang_eleven_returns_infinity :
    evaluateRPN [Tok.num 11, Tok.op Op.fact] = some JN.inf := by decide

/-- C3 (amended): on an RPN sequence over non-negative number tokens,
(1) every evaluator step sent a stack of values that are non-negative integers
or `Infinity` to a stack of the same kind, (2) an accepted sequence's final
value is a non-negative integer or `Infinity`, and (3) `!` on an integer
operand greater than 10 pushes the `Infinity` sentinel instead of failing. -/
theorem evaluator_values_ok (rpn : List Tok) (hnum : ∀ v, Tok.num v ∈ rpn → 0 ≤ v) :
    (∀ tok, tok ∈ rpn → ∀ stack stack', (∀ x ∈ stack, jnOk x) →
        evalStep stack tok = some stack' → ∀ x ∈ stack', jnOk x)
    ∧ (∀ v, evaluateRPN rpn = some v → jnOk v)
    ∧ (∀ (z : Int) (stack : List JN), 10 < z →
        evalStep (JN.fin z :: stack) (Tok.op Op.fact) = some (JN.inf :: stack)) := by
  refine ⟨?_, ?_, ?_⟩
  · intro tok htok stack stack' hstack h
    exact evalStep_ok tok stack stack'
      (fun v hveq => hnum v (hveq ▸ htok)) hstack h
  · intro v h
    unfold evaluateRPN at h
    rcases hfold : List.foldlM evalStep [] rpn with _ | out
    · rw [hfold] at h
      exact Option.noConfusion h
    · rw [hfold] at h
      match out, hfold, h with
      | [w], hfold, h =>
        obtain rfl := Option.some_inj.mp h
        exact evalFold_ok rpn [] hnum (by simp) [w] hfold w (by simp)
  · intro z stack hz
    simp only [evalStep]
    rw [if_neg (not_lt.mpr (by omega))]
    unfold factorial
    rw [if_pos]
    simp only [decide_eq_true_eq, Bool.or_eq_true]
    right
    simpa using hz

/-- Witness for C3 (amended) at the sequence `[3, 1, '-']`, whose value 2 is a
non-negative integer. -/
theorem evaluator_values_ok_witness :
    (0 : Int) ≤ 3 ∧ jnOk (JN.fin 2) := by
  refine ⟨by decide, ?_⟩
  have hnum : ∀ v : Int, Tok.num v ∈ [Tok.num 3, Tok.num 1, Tok.op Op.sub] → 0 ≤ v := by
    intro v hv
    simp only [List.mem_cons, List.not_mem_nil, or_false, Tok.num.injEq, reduceCtorEq] at hv
    rcases hv with rfl | rfl <;> decide
  exact (evaluator_values_ok [Tok.num 3, Tok.num 1, Tok.op Op.sub] hnum).2.1
    (JN.fin 2) (by decide)

/-! ### C4: the factorial branch of the unary decoration pass -/

/-- C4 (counterexample to the claim as stated): for the permutation `[4]` at
the top level, the bounded factorial of the original entry 4 is finite (24),
yet the factorial branch recurses on `[2]` — the factorial of the
sqrt-substituted value — not on `[24]`. -/
theorem unaryFact_uses_mutated_value :
    (unaryArgsAt (opsForLevel (JSv.str "3")) [4] 0).2 = some [2] ∧
      factorial 4 = JN.fin 24 ∧ ([2] : List Int) ≠ [24] := by decide

/-- C4 (amended): whenever `!` is available and the bounded factorial of the
value the branch actually reads — `p[i]` after the sqrt branch possibly
replaced it — is finite, the factorial branch recurses on `p` with position `i`
set to that factorial. -/
theorem unaryFact_arg_characterization (operators : List Op) (p : List Int) (i : Nat)
    (f : Int) (hf : operators.contains Op.fact = true)
    (hcur : factorial (unaryCurrentVal operators p i) = JN.fin f) :
    (unaryArgsAt operators p i).2 = some (p.set i f) := by
  simp only [unaryArgsAt]
  unfold unaryCurrentVal at hcur
  by_cases hsq : operators.contains Op.sqrt = true
  · rw [if_pos hsq] at hcur
    simp only [hsq, if_true]
    rcases hroot : jsSqrtInt (p.getD i 0) with _ | r <;> rw [hroot] at hcur
    · simp only [hf, if_true, hcur]
    · have hval : (p.set i r).getD i 0 = r := by
        by_cases hi : i < p.length
        · simp [List.getD_eq_getElem?_getD, List.getElem?_set_self hi]
        · have hpe : p.set i r = p := List.set_eq_of_length_le (le_of_not_lt hi)
          have hgd : p.getD i 0 = 0 := by
            simp [List.getD_eq_getElem?_getD, List.getElem?_eq_none (le_of_not_lt hi)]
          have hr0 : r = 0 := by
            rw [hgd] at hroot
            have h0 : jsSqrtInt 0 = some 0 := by decide
            exact (Option.some_inj.mp (h0.symm.trans hroot)).symm
          rw [hpe, hgd, hr0]
      simp only [hval, hcur, hf, if_true]
      rw [List.set_set]
  · rw [if_neg hsq] at hcur
    simp only [Bool.not_eq_true] at hsq
    simp only [hsq, Bool.false_eq_true, if_false, hf, if_true, hcur]

/-- Witness for C4 (amended) at `p = [4]`, `i = 0`: the sqrt branch rewrites 4
to 2, `factorial 2 = 2`, and the factorial branch recurses on `[2]`. -/
theorem unaryFact_arg_characterization_witness :
    (unaryArgsAt (opsForLevel (JSv.str "3")) [4] 0).2 = some [2] ∧
      jsStrictEq (JSv.str "3") (JSv.num 3) = false := by
  refine ⟨?_, by decide⟩
  have h := unaryFact_arg_characterization (opsForLevel (JSv.str "3")) [4] 0 2
    (by decide) (by decide)
  simpa using h

/-! ### C5: the scenario `numbers = [1,2,3,4], target = 10, level = "B"` -/

/-- C5 (counterexample to the claim as stated): the returned `exactSolutions`
holds exactly one record, whose RPN is `[1,2,3,4,'+','+','+']` (the
all-numbers-then-all-operators shape) with score 7 — not the claimed RPN
`[1,2,'+',3,'+',4,'+']` with score 4. -/
theorem scenario_1234_no_score4_record :
    (findSolutionsF 1 [1, 2, 3, 4] 10 (JSv.str "B")).map
        (fun r => r.exactSolutions.map (fun s => (s.rpn, s.score))) =
      some [(some [Tok.num 1, Tok.num 2, Tok.num 3, Tok.num 4, Tok.op Op.add,
        Tok.op Op.add, Tok.op Op.add], 7)] := by decide

/-- C5 (amended): for `[1,2,3,4]`, target 10, level "B", the
all-numbers-then-all-operators shape with all `+` yields the RPN
`[1,2,3,4,'+','+','+']`, which evaluates to 10, and the corresponding record —
value 10, expression `1+(2+(3+4))`, score 7 — is the single record of
`exactSolutions`. -/
theorem scenario_1234_exact_record :
    evaluateRPN [Tok.num 1, Tok.num 2, Tok.num 3, Tok.num 4, Tok.op Op.add,
        Tok.op Op.add, Tok.op Op.add] = some (JN.fin 10) ∧
      (findSolutionsF 1 [1, 2, 3, 4] 10 (JSv.str "B")).map
          (fun r => r.exactSolutions) =
        some [⟨10, some ('1' :: '+' :: '(' :: '2' :: '+' :: '(' :: '3' :: '+' :: '4' ::
          ')' :: [')']),
          some [Tok.num 1, Tok.num 2, Tok.num 3, Tok.num 4, Tok.op Op.add,
            Tok.op Op.add, Tok.op Op.add],
          SolType.normal, none, 7⟩] := by decide

/-! ### C8: the permutation pipeline on the empty input -/

/-- C8 (counterexample to the claim as stated): on the empty input the
pipeline of source line 134 returns `[[0]]` — the empty ordering of the empty
input is not returned (and `[0]` is not an ordering of it), because
`[].join(',') = ""`, `"".split(',') = [""]`, and `Number("") = 0`. -/
theorem numPermutations_empty_input :
    numPermutations [] = [[0]] ∧ ¬([] ∈ numPermutations []) := by decide

/-! ### C9: the tracker invariant — at most one exact record -/

theorem mapSet_preserves_inv (t : Int) (v : Sol) (m : List (Int × Sol))
    (h1 : ∀ e ∈ m, e.1 = t) (h2 : m.length ≤ 1) :
    (∀ e ∈ mapSet t v m, e.1 = t) ∧ (mapSet t v m).length ≤ 1 := by
  match m with
  | [] => exact ⟨by simp [mapSet], by simp [mapSet]⟩
  | [(k, w)] =>
    have hk : k = t := h1 (k, w) (by simp)
    subst hk
    simp [mapSet]
  | e1 :: e2 :: rest => exact absurd h2 (by simp)

theorem updateSolutions_inv (t : Int) (value : JN) (rpn : Option (List Tok))
    (ty : SolType) (sg : Option SigmaData) (st st' : SearchState)
    (hst : TrackerInv t st) (h : updateSolutions t value rpn ty sg st = some st') :
    TrackerInv t st' := by
  unfold updateSolutions at h
  cases value with
  | inf =>
    obtain rfl := Option.some_inj.mp h
    exact hst
  | fin v =>
    simp only at h
    split at h
    · exact Option.noConfusion h
    · rename_i st1 heq
      have hsols : st1.solutions = st.solutions := by
        split at heq
        · split at heq
          · exact Option.noConfusion heq
          · obtain rfl := Option.some_inj.mp heq
            rfl
        · obtain rfl := Option.some_inj.mp heq
          rfl
      have h1 : ∀ e ∈ st1.solutions, e.1 = t := by
        rw [hsols]; exact hst.1
      have h2 : st1.solutions.length ≤ 1 := by
        rw [hsols]; exact hst.2
      split at h
      · rename_i hv
        split at h
        · obtain rfl := Option.some_inj.mp h
          exact ⟨h1, h2⟩
        · subst hv
          match rpn, h with
          | some r, h =>
            obtain rfl := Option.some_inj.mp h
            exact ⟨(mapSet_preserves_inv v _ _ h1 h2).1,
              (mapSet_preserves_inv v _ _ h1 h2).2⟩
      · obtain rfl := Option.some_inj.mp h
        exact ⟨h1, h2⟩

theorem tryCandidate_inv (t : Int) (rpn : List Tok) (st st' : SearchState)
    (hst : TrackerInv t st) (h : tryCandidate t rpn st = some st') : TrackerInv t st' := by
  unfold tryCandidate at h
  split at h
  · exact updateSolutions_inv t _ _ _ _ st st' hst h
  · obtain rfl := Option.some_inj.mp h
    exact hst

theorem processCombo_inv (t : Int) (p : List Int) (c : List Op) (st st' : SearchState)
    (hst : TrackerInv t st) (h : processCombo t p c st = some st') : TrackerInv t st' := by
  unfold processCombo at h
  obtain ⟨s1, h1, h⟩ := Option.bind_eq_some.mp h
  obtain ⟨s2, h2, h⟩ := Option.bind_eq_some.mp h
  have i1 := tryCandidate_inv t _ st s1 hst h1
  have i2 : TrackerInv t s2 := by
    split at h2
    · exact tryCandidate_inv t _ s1 s2 i1 h2
    · obtain rfl := Option.some_inj.mp h2
      exact i1
  split at h
  · exact tryCandidate_inv t _ s2 st' i2 h
  · obtain rfl := Option.some_inj.mp h
    exact i2

theorem processCombosForPerm_inv (t : Int) (ops : List Op) (p : List Int)
    (st st' : SearchState) (hst : TrackerInv t st)
    (h : processCombosForPerm t ops p st = some st') : TrackerInv t st' := by
  unfold processCombosForPerm at h
  exact option_foldlM_inv (TrackerInv t) _
    (fun s a s' hP hf => processCombo_inv t p a s s' hP hf) _ st st' hst h

theorem mergeExacts_inv (t : Int) (subs : List Sol) (st st' : SearchState)
    (hst : TrackerInv t st) (h : mergeExacts t subs st = some st') : TrackerInv t st' := by
  unfold mergeExacts at h
  exact option_foldlM_inv (TrackerInv t) _
    (fun s a s' hP hf => updateSolutions_inv t _ _ _ _ s s' hP hf) subs st st' hst h

theorem unaryPassWith_inv (search : List Int → Option SearchResult) (t : Int)
    (ops : List Op) (p : List Int) (st st' : SearchState)
    (hst : TrackerInv t st) (h : unaryPassWith search t ops p st = some st') :
    TrackerInv t st' := by
  unfold unaryPassWith at h
  refine option_foldlM_inv (TrackerInv t) _ ?_ _ st st' hst h
  intro s i s' hP hf
  simp only at hf
  obtain ⟨sm, hm1, hm2⟩ := Option.bind_eq_some.mp hf
  have im : TrackerInv t sm := by
    split at hm1
    · obtain ⟨sub, hsub, hmer⟩ := Option.bind_eq_some.mp hm1
      exact mergeExacts_inv t _ s sm hP hmer
    · obtain rfl := Option.some_inj.mp hm1
      exact hP
  split at hm2
  · obtain ⟨sub, hsub, hmer⟩ := Option.bind_eq_some.mp hm2
    exact mergeExacts_inv t _ sm s' im hmer
  · obtain rfl := Option.some_inj.mp hm2
    exact im

theorem sigmaStepWith_inv (searchLow : List Int → Option SearchResult) (t : Int)
    (p : List Int) (i j : Nat) (st st' : SearchState)
    (hst : TrackerInv t st) (h : sigmaStepWith searchLow t p i j st = some st') :
    TrackerInv t st' := by
  unfold sigmaStepWith at h
  simp only at h
  split at h
  · obtain rfl := Option.some_inj.mp h
    exact hst
  · split at h
    · obtain rfl := Option.some_inj.mp h
      exact hst
    · obtain ⟨s1, h1, h2⟩ := Option.bind_eq_some.mp h
      have i1 : TrackerInv t s1 := by
        split at h1
        · obtain ⟨sub, hsub, hs1⟩ := Option.bind_eq_some.mp h1
          obtain rfl := Option.some_inj.mp hs1
          exact hst
        · obtain rfl := Option.some_inj.mp h1
          exact hst
      split at h2
      · obtain rfl := Option.some_inj.mp h2
        exact ⟨(mapSet_preserves_inv t _ _ i1.1 i1.2).1,
          (mapSet_preserves_inv t _ _ i1.1 i1.2).2⟩
      · obtain rfl := Option.some_inj.mp h2
        exact i1

theorem sigmaPassWith_inv (searchLow : List Int → Option SearchResult) (t : Int)
    (perms : List (List Int)) (st st' : SearchState)
    (hst : TrackerInv t st) (h : sigmaPassWith searchLow t perms st = some st') :
    TrackerInv t st' := by
  unfold sigmaPassWith at h
  refine option_foldlM_inv (TrackerInv t) _ ?_ _ st st' hst h
  intro s p s' hP hf
  refine option_foldlM_inv (TrackerInv t) _ ?_ _ s s' hP hf
  intro s2 i s2' hP2 hf2
  refine option_foldlM_inv (TrackerInv t) _ ?_ _ s2 s2' hP2 hf2
  intro s3 j s3' hP3 hf3
  exact sigmaStepWith_inv searchLow t p i j s3 s3' hP3 hf3

theorem insertByScore_length (x : Sol) (l : List Sol) :
    (insertByScore x l).length = l.length + 1 := by
  induction l with
  | nil => rfl
  | cons y ys ih =>
    unfold insertByScore
    split
    · rfl
    · simp only [List.length_cons, ih]

theorem sortByScore_length (l : List Sol) : (sortByScore l).length = l.length := by
  induction l with
  | nil => rfl
  | cons x xs ih =>
    unfold sortByScore
    rw [insertByScore_length, ih]
    rfl

/-- C9: for every input, fuel, target and level, a completed search returns at
most one exact record: exact matches are stored in a map keyed by their value,
and every stored key equals the target. -/
theorem exactSolutions_at_most_one (fuel : Nat) (numbers : List Int) (target : Int)
    (level : JSv) (r : SearchResult)
    (h : findSolutionsF fuel numbers target level = some r) :
    r.exactSolutions.length ≤ 1 := by
  match fuel, h with
  | 0, h => exact Option.noConfusion h
  | Nat.succ n, h =>
    simp only [findSolutionsF] at h
    obtain ⟨st, hst, h⟩ := Option.bind_eq_some.mp h
    obtain ⟨st2, hst2, h⟩ := Option.bind_eq_some.mp h
    have inv0 : TrackerInv target ⟨[], none⟩ := ⟨by simp, by simp⟩
    have inv1 : TrackerInv target st := by
      refine option_foldlM_inv (TrackerInv target) _ ?_ _ _ _ inv0 hst
      intro s p s' hP hf
      obtain ⟨s1, h1, h2⟩ := Option.bind_eq_some.mp hf
      have i1 := processCombosForPerm_inv target _ _ s s1 hP h1
      split at h2
      · exact unaryPassWith_inv _ target _ p s1 s' i1 h2
      · obtain rfl := Option.some_inj.mp h2
        exact i1
    have inv2 : TrackerInv target st2 := by
      split at hst2
      · exact sigmaPassWith_inv _ target _ st st2 inv1 hst2
      · obtain rfl := Option.some_inj.mp hst2
        exact inv1
    obtain rfl := Option.some_inj.mp h
    show (distill target st2).exactSolutions.length ≤ 1
    unfold distill
    simp only
    have hb1 : ((sortByScore ((st2.solutions.map (fun e => e.2)).filter
        (fun s => s.value = target))).take 3).length ≤
        (sortByScore ((st2.solutions.map (fun e => e.2)).filter
        (fun s => s.value = target))).length := by
      rw [List.length_take]
      exact min_le_right _ _
    rw [sortByScore_length] at hb1
    refine le_trans hb1 (le_trans (le_trans (List.length_filter_le _ _) ?_) inv2.2)
    rw [List.length_map]

/-- Witness for C9 at the empty input, target 0, level "B". -/
theorem exactSolutions_at_most_one_witness :
    ([⟨0, some ['0'], some [Tok.num 0], SolType.normal, none, 1⟩] : List Sol).length ≤ 1 := by
  have h : findSolutionsF 1 [] 0 (JSv.str "B") = some
      ⟨[⟨0, some ['0'], some [Tok.num 0], SolType.normal, none, 1⟩],
        some ⟨0, ['0'], 0, [Tok.num 0], SolType.normal, none, 1⟩⟩ := by decide
  exact exactSolutions_at_most_one 1 [] 0 (JSv.str "B") _ h

/-! ### C10: the empty input behaves as the single number 0 -/

/-- C10: with the empty number list and level "B", the permutation pipeline
produces `[[0]]` (because `[].join(',') = ""`, `"".split(',') = [""]` and
`Number("") = 0`), the candidate RPN `[0]` is evaluated, and the returned
`closest` record is non-null with value 0 and expression "0"; when the target
is 0 it is also the (single) exact solution with expression "0". -/
theorem empty_input_behaves_as_zero (target : Int) :
    numPermutations [] = [[0]] ∧
    ∃ r, findSolutionsF 1 [] target (JSv.str "B") = some r ∧
      (∃ c, r.closest = some c ∧ c.value = 0 ∧ c.expression = ['0'] ∧
        c.rpn = [Tok.num 0]) ∧
      (target = 0 →
        r.exactSolutions = [⟨0, some ['0'], some [Tok.num 0], SolType.normal, none, 1⟩]) := by
  refine ⟨by decide, ?_⟩
  by_cases ht : target = 0
  · subst ht
    refine ⟨⟨[⟨0, some ['0'], some [Tok.num 0], SolType.normal, none, 1⟩],
      some ⟨0, ['0'], 0, [Tok.num 0], SolType.normal, none, 1⟩⟩, by decide, ?_, ?_⟩
    · exact ⟨_, rfl, rfl, rfl, rfl⟩
    · intro _
      rfl
  · refine ⟨⟨[], some ⟨0, ['0'], (0 - target).natAbs, [Tok.num 0], SolType.normal,
      none, 1⟩⟩, ?_, ?_, ?_⟩
    · have hp : numPermutations [] = [[0]] := by decide
      have hcombos : generateOpCombinations (opsForLevel (JSv.str "B"))
          (([0] : List Int).length - 1) [] = [[]] := by decide
      have heval : evaluateRPN [Tok.num 0] = some (JN.fin 0) := by decide
      have hupd : updateSolutions target (JN.fin 0) (some [Tok.num 0]) SolType.normal none
          ⟨[], none⟩ = some ⟨[], some ⟨0, ['0'], (0 - target).natAbs, [Tok.num 0],
            SolType.normal, none, 1⟩⟩ := by
        unfold updateSolutions
        simp +decide only [show rpnToInfix [Tok.num 0] = ['0'] from by decide,
          show calculateScore [Tok.num 0] = 1 from by decide, if_true]
        rw [if_neg (fun hh : (0 : Int) = target => ht hh.symm)]
      simp +decide only [findSolutionsF, hp, List.foldlM_cons, List.foldlM_nil,
        processCombosForPerm, hcombos, processCombo, tryCandidate, List.map_cons,
        List.map_nil, List.append_nil, heval, hupd, Option.some_bind]
      rfl
    · exact ⟨_, rfl, rfl, rfl, rfl⟩
    · intro hh
      exact absurd hh ht

/-- Witness for C10 at target 0. -/
theorem empty_input_behaves_as_zero_witness :
    numPermutations [] = [[0]] ∧
      (findSolutionsF 1 [] 0 (JSv.str "B")).map (fun r => r.exactSolutions) =
        some [⟨0, some ['0'], some [Tok.num 0], SolType.normal, none, 1⟩] := by
  obtain ⟨h1, r, hr, _, hex⟩ := empty_input_behaves_as_zero 0
  exact ⟨h1, by rw [hr, Option.map_some', hex rfl]⟩

/-! ### C1, C2: divergence of the recursive search -/

theorem updateSolutions_some_rpn_isSome (t : Int) (value : JN) (r : List Tok)
    (ty : SolType) (sg : Option SigmaData) (st : SearchState) :
    (updateSolutions t value (some r) ty sg st).isSome := by
  unfold updateSolutions
  cases value with
  | inf => rfl
  | fin v =>
    simp only
    split
    · rename_i heq
      exfalso
      split at heq
      · exact Option.noConfusion heq
      · exact Option.noConfusion heq
    · split
      · split
        · rfl
        · rfl
      · rfl

theorem tryCandidate_isSome (t : Int) (rpn : List Tok) (st : SearchState) :
    (tryCandidate t rpn st).isSome := by
  unfold tryCandidate
  split
  · exact updateSolutions_some_rpn_isSome t _ _ _ _ st
  · rfl

theorem option_isSome_bind {α β : Type} (x : Option α) (f : α → Option β)
    (hx : x.isSome) (hf : ∀ a, (f a).isSome) : (x.bind f).isSome := by
  cases x
  · exact Bool.noConfusion hx
  · exact hf _

theorem processCombo_isSome (t : Int) (p : List Int) (c : List Op) (st : SearchState) :
    (processCombo t p c st).isSome := by
  unfold processCombo
  refine option_isSome_bind _ _ (tryCandidate_isSome t _ st) (fun a => ?_)
  refine option_isSome_bind _ _ ?_ (fun b => ?_)
  · split
    · exact tryCandidate_isSome t _ a
    · rfl
  · split
    · exact tryCandidate_isSome t _ b
    · rfl

theorem processCombosForPerm_isSome (t : Int) (ops : List Op) (p : List Int)
    (st : SearchState) : (processCombosForPerm t ops p st).isSome := by
  unfold processCombosForPerm
  exact option_foldlM_isSome _ (fun s a => processCombo_isSome t p a s) _ st

/-- C2: the search does not terminate on every input — on `numbers = [1]` at
level "2" the unary decoration pass finds `sqrt(1) = 1` an integer and
re-invokes `findSolutions` on the identical list `[1]`, an infinite
recursion: the fuel-indexed model returns no result for any amount of fuel. -/
theorem findSolutions_diverges_on_one (fuel : Nat) (t : Int) :
    findSolutionsF fuel [1] t (JSv.str "2") = none := by
  induction fuel with
  | zero => rfl
  | succ n ih =>
    have hp : numPermutations [1] = [[1]] := by decide
    have hun : ∀ s : SearchState,
        unaryPassWith (fun nums => findSolutionsF n nums t (JSv.str "2")) t
          (opsForLevel (JSv.str "2")) [1] s = none := by
      intro s
      unfold unaryPassWith
      have hargs : unaryArgsAt (opsForLevel (JSv.str "2")) [1] 0 = (some [1], none) := by
        decide
      simp only [List.length_cons, List.length_nil, List.range_succ, List.range_zero,
        List.nil_append, List.foldlM_cons, hargs, ih]
      rfl
    simp only [findSolutionsF, hp, List.foldlM_cons]
    obtain ⟨s1, hs1⟩ := Option.isSome_iff_exists.mp
      (processCombosForPerm_isSome t (opsForLevel (JSv.str "2")) [1] ⟨[], none⟩)
    rw [hs1]
    simp +decide only [Option.some_bind, hun]
    rfl

/-- C1: on the scenario `numbers = [1,5,9,9], target = 15, level = "3"` the
call never returns at all: the very first permutation starts with 1, whose
integer square root is 1, so the unary decoration pass re-invokes
`findSolutions` on the identical list `[1,5,9,9]` — an infinite recursion
(and, independently, the sigma block is guarded by `level === 3`, which is
false for the string "3"). No sigma record is ever produced. -/
theorem findSolutions_diverges_on_sigma_scenario (fuel : Nat) (t : Int) :
    findSolutionsF fuel [1, 5, 9, 9] t (JSv.str "3") = none := by
  induction fuel with
  | zero => rfl
  | succ n ih =>
    have hp : numPermutations [1, 5, 9, 9] =
        [1, 5, 9, 9] :: (numPermutations [1, 5, 9, 9]).tail := by decide
    have hun : ∀ s : SearchState,
        unaryPassWith (fun nums => findSolutionsF n nums t (JSv.str "3")) t
          (opsForLevel (JSv.str "3")) [1, 5, 9, 9] s = none := by
      intro s
      unfold unaryPassWith
      have hargs : unaryArgsAt (opsForLevel (JSv.str "3")) [1, 5, 9, 9] 0 =
          (some [1, 5, 9, 9], some [1, 5, 9, 9]) := by decide
      have hrange : List.range ([1, 5, 9, 9] : List Int).length = [0, 1, 2, 3] := by decide
      simp only [hrange, List.foldlM_cons, hargs, ih]
      rfl
    rw [findSolutionsF, hp, List.foldlM_cons]
    obtain ⟨s1, hs1⟩ := Option.isSome_iff_exists.mp
      (processCombosForPerm_isSome t (opsForLevel (JSv.str "3")) [1, 5, 9, 9] ⟨[], none⟩)
    rw [hs1]
    simp +decide only [Option.some_bind, hun]
    rfl

/-! ### C8: the permutation pipeline returns each distinct ordering once -/

theorem insertEverywhere_eq_aux (x : Int) (p : List Int) :
    insertEverywhere x p = List.permutations'Aux x p := by
  induction p with
  | nil => rfl
  | cons y ys ih =>
    rw [List.permutations'Aux, ← ih]
    unfold insertEverywhere
    rw [show (y :: ys).length + 1 = ys.length + 1 + 1 from rfl, List.range_succ_eq_map]
    rw [List.map_cons, List.map_map, List.map_map]
    rfl

theorem getPermutations_eq_permutations (l : List Int) :
    getPermutations l = l.permutations' := by
  induction l with
  | nil => rfl
  | cons x xs ih =>
    rw [getPermutations, ih, List.permutations']
    rw [show insertEverywhere x = List.permutations'Aux x from
      funext (insertEverywhere_eq_aux x)]

theorem natDigitsRev_lt_ten (fuel : Nat) :
    ∀ n, ∀ d ∈ natDigitsRev fuel n, d < 10 := by
  induction fuel with
  | zero =>
    intro n d hd
    exact absurd hd (by simp [natDigitsRev])
  | succ m ih =>
    intro n d hd
    rw [natDigitsRev] at hd
    split at hd
    · exact absurd hd (by simp)
    · rcases List.mem_cons.mp hd with rfl | hd
      · exact Nat.mod_lt _ (by decide)
      · exact ih _ d hd

theorem ofDigitsRev_natDigitsRev (fuel : Nat) :
    ∀ n, n ≤ fuel → ofDigitsRev (natDigitsRev fuel n) = n := by
  induction fuel with
  | zero =>
    intro n hn
    interval_cases n
    rfl
  | succ m ih =>
    intro n hn
    rw [natDigitsRev]
    split
    · rename_i h0
      rw [h0]
      rfl
    · rename_i h0
      rw [ofDigitsRev]
      have hdiv : n / 10 ≤ m := by
        have h1 : n / 10 < n := Nat.div_lt_self (Nat.pos_of_ne_zero h0) (by decide)
        omega
      rw [ih (n / 10) hdiv]
      exact Nat.mod_add_div n 10

theorem digitsToNat_append (l : List Char) (c : Char) :
    digitsToNat (l ++ [c]) = 10 * digitsToNat l + (c.toNat - 48) := by
  unfold digitsToNat
  rw [List.foldl_append]
  rfl

theorem digitsToNat_reverse_map (ds : List Nat) (hd : ∀ d ∈ ds, d < 10) :
    digitsToNat ((ds.map (fun d => Char.ofNat (48 + d))).reverse) = ofDigitsRev ds := by
  induction ds with
  | nil => rfl
  | cons d ds ih =>
    rw [List.map_cons, List.reverse_cons, digitsToNat_append]
    rw [ih (fun x hx => hd x (List.mem_cons_of_mem _ hx))]
    rw [ofDigitsRev]
    have hlt : d < 10 := hd d (List.mem_cons_self _ _)
    have hc : (Char.ofNat (48 + d)).toNat - 48 = d := by
      interval_cases d <;> rfl
    rw [hc]
    omega

theorem digitsToNat_natToChars (n : Nat) : digitsToNat (natToChars n) = n := by
  unfold natToChars
  split
  · rename_i h0
    rw [h0]
    rfl
  · rw [digitsToNat_reverse_map _ (natDigitsRev_lt_ten n n)]
    exact ofDigitsRev_natDigitsRev n n le_rfl

theorem natToChars_digits (n : Nat) :
    ∀ c ∈ natToChars n, 48 ≤ c.toNat ∧ c.toNat ≤ 57 := by
  unfold natToChars
  split
  · intro c hc
    simp only [List.mem_singleton] at hc
    rw [hc]
    exact ⟨by decide, by decide⟩
  · intro c hc
    rw [List.mem_reverse] at hc
    obtain ⟨d, hd, rfl⟩ := List.mem_map.mp hc
    have hlt : d < 10 := natDigitsRev_lt_ten n n d hd
    interval_cases d <;> exact ⟨by decide, by decide⟩

theorem natToChars_ne_nil (n : Nat) : natToChars n ≠ [] := by
  unfold natToChars
  split
  · simp
  · rename_i h0
    match hn : n, h0 with
    | Nat.succ m, h0 =>
      rw [natDigitsRev, if_neg h0]
      simp

theorem jsNumberOfChars_intToChars (z : Int) : jsNumberOfChars (intToChars z) = z := by
  unfold intToChars
  split
  · rename_i hlt
    rw [jsNumberOfChars, if_pos rfl, digitsToNat_natToChars]
    omega
  · rename_i hge
    rcases hsh : natToChars z.toNat with _ | ⟨c, cs⟩
    · exact absurd hsh (natToChars_ne_nil _)
    · have hdig : 48 ≤ c.toNat ∧ c.toNat ≤ 57 := by
        refine natToChars_digits z.toNat c ?_
        rw [hsh]
        exact List.mem_cons_self _ _
      have hcne : ¬c = '-' := by
        intro hc
        rw [hc] at hdig
        exact absurd hdig.1 (by decide)
      rw [jsNumberOfChars, if_neg hcne, ← hsh, digitsToNat_natToChars]
      omega

theorem intToChars_no_comma (z : Int) : ∀ c ∈ intToChars z, c ≠ ',' := by
  unfold intToChars
  split
  · intro c hc
    rcases List.mem_cons.mp hc with rfl | hc
    · decide
    · have hdig := natToChars_digits _ c hc
      intro h
      rw [h] at hdig
      exact absurd hdig.1 (by decide)
  · intro c hc
    have hdig := natToChars_digits _ c hc
    intro h
    rw [h] at hdig
    exact absurd hdig.1 (by decide)

theorem splitComma_no_comma (s : List Char) (h : ∀ c ∈ s, c ≠ ',') :
    splitComma s = [s] := by
  induction s with
  | nil => rfl
  | cons c cs ih =>
    rw [splitComma, if_neg (h c (by simp)),
      ih (fun x hx => h x (List.mem_cons_of_mem _ hx))]

theorem splitComma_append (s r : List Char) (h : ∀ c ∈ s, c ≠ ',') :
    splitComma (s ++ ',' :: r) = s :: splitComma r := by
  induction s with
  | nil =>
    rw [List.nil_append, splitComma, if_pos rfl]
  | cons c cs ih =>
    rw [List.cons_append, splitComma, if_neg (h c (by simp)),
      ih (fun x hx => h x (List.mem_cons_of_mem _ hx))]

theorem splitComma_joinComma (ss : List (List Char)) (hne : ss ≠ [])
    (h : ∀ s ∈ ss, ∀ c ∈ s, c ≠ ',') :
    splitComma (joinComma ss) = ss := by
  induction ss with
  | nil => exact absurd rfl hne
  | cons s ss ih =>
    cases ss with
    | nil =>
      rw [joinComma]
      exact splitComma_no_comma s (h s (by simp))
    | cons s2 rest =>
      rw [joinComma, splitComma_append s _ (h s (by simp))]
      have hne2 : s2 :: rest ≠ [] := by simp
      rw [ih hne2 (fun x hx c hc => h x (List.mem_cons_of_mem _ hx) c hc)]
      exact fun hcontra => List.noConfusion hcontra

theorem mem_setDedupAux (seen l : List (List Char)) (x : List Char) :
    x ∈ setDedupAux seen l ↔ x ∈ l ∧ x ∉ seen := by
  induction l generalizing seen with
  | nil => simp [setDedupAux]
  | cons y ys ih =>
    rw [setDedupAux]
    split
    · rename_i hy
      rw [ih]
      constructor
      · rintro ⟨hx, hs⟩
        exact ⟨List.mem_cons_of_mem _ hx, hs⟩
      · rintro ⟨hx, hs⟩
        rcases List.mem_cons.mp hx with rfl | hx
        · exact absurd hy hs
        · exact ⟨hx, hs⟩
    · rename_i hy
      rw [List.mem_cons, ih]
      constructor
      · rintro (rfl | ⟨hx, hs⟩)
        · exact ⟨List.mem_cons_self _ _, hy⟩
        · refine ⟨List.mem_cons_of_mem _ hx, fun hc => hs (List.mem_cons_of_mem _ hc)⟩
      · rintro ⟨hx, hs⟩
        rcases List.mem_cons.mp hx with rfl | hx
        · exact Or.inl rfl
        · by_cases hxy : x = y
          · exact Or.inl hxy
          · refine Or.inr ⟨hx, fun hc => ?_⟩
            rcases List.mem_cons.mp hc with h1 | h1
            · exact hxy h1
            · exact hs h1

theorem nodup_setDedupAux (l : List (List Char)) :
    ∀ seen, (setDedupAux seen l).Nodup := by
  induction l with
  | nil => intro seen; exact List.nodup_nil
  | cons y ys ih =>
    intro seen
    rw [setDedupAux]
    split
    · exact ih seen
    · refine List.nodup_cons.mpr ⟨?_, ih (y :: seen)⟩
      intro hy
      exact ((mem_setDedupAux (y :: seen) ys y).mp hy).2 (List.mem_cons_self _ _)

/-- C8 (amended): for non-empty inputs the permutation pipeline (generation,
comma-joining, `Set` deduplication, splitting back) returns every distinct
ordering of the input exactly once — no two returned permutations are
token-wise identical and membership is exactly "is a permutation of the
input" — and for `[2,2,3]` exactly 3 orderings are returned. -/
theorem numPermutations_characterization (numbers : List Int) (hne : numbers ≠ []) :
    (numPermutations numbers).Nodup ∧
      (∀ l, l ∈ numPermutations numbers ↔ l.Perm numbers) ∧
      (numPermutations [2, 2, 3]).length = 3 := by
  have hjoin : ∀ p : List Int, p ≠ [] →
      (splitComma (joinComma (p.map intToChars))).map jsNumberOfChars = p := by
    intro p hp
    have hmapne : p.map intToChars ≠ [] := by simpa using hp
    rw [splitComma_joinComma _ hmapne ?_, List.map_map]
    · rw [show jsNumberOfChars ∘ intToChars = id from funext jsNumberOfChars_intToChars]
      exact List.map_id p
    · intro s hs c hc
      obtain ⟨z, hz, rfl⟩ := List.mem_map.mp hs
      exact intToChars_no_comma z c hc
  have hback : ∀ s ∈ setDedup ((getPermutations numbers).map
      (fun p => joinComma (p.map intToChars))),
      ∃ p, p.Perm numbers ∧ s = joinComma (p.map intToChars) ∧
        (splitComma s).map jsNumberOfChars = p := by
    intro s hs
    have hs' : s ∈ (getPermutations numbers).map
        (fun p => joinComma (p.map intToChars)) :=
      ((mem_setDedupAux [] _ s).mp hs).1
    obtain ⟨p, hp, rfl⟩ := List.mem_map.mp hs'
    have hperm : p.Perm numbers := by
      rw [getPermutations_eq_permutations] at hp
      exact List.mem_permutations'.mp hp
    have hpne : p ≠ [] := by
      intro h0
      subst h0
      exact hne (List.Perm.eq_nil hperm.symm)
    exact ⟨p, hperm, rfl, hjoin p hpne⟩
  refine ⟨?_, ?_, by decide⟩
  · show ((setDedup _).map _).Nodup
    refine List.Nodup.map_on ?_ (nodup_setDedupAux _ [])
    intro s1 h1 s2 h2 heq
    obtain ⟨p1, hperm1, hj1, hb1⟩ := hback s1 h1
    obtain ⟨p2, hperm2, hj2, hb2⟩ := hback s2 h2
    simp only at heq
    rw [hb1, hb2] at heq
    rw [hj1, hj2, heq]
  · intro l
    constructor
    · intro hl
      obtain ⟨s, hsmem, rfl⟩ := List.mem_map.mp hl
      obtain ⟨p, hperm, hj, hb⟩ := hback s hsmem
      rw [hb]
      exact hperm
    · intro hl
      have hlp : l ∈ getPermutations numbers := by
        rw [getPermutations_eq_permutations]
        exact List.mem_permutations'.mpr hl
      have hs : joinComma (l.map intToChars) ∈ setDedup ((getPermutations numbers).map
          (fun p => joinComma (p.map intToChars))) := by
        refine (mem_setDedupAux [] _ _).mpr ⟨?_, by simp⟩
        exact List.mem_map_of_mem _ hlp
      have hlne : l ≠ [] := by
        intro h0
        subst h0
        exact hne (List.Perm.eq_nil hl.symm)
      exact List.mem_map.mpr ⟨_, hs, hjoin l hlne⟩

/-- Witness for C8 (amended) at the input `[2,2,3]`. -/
theorem numPermutations_characterization_witness :
    (numPermutations [2, 2, 3]).Nodup ∧ (numPermutations [2, 2, 3]).length = 3 := by
  have h := numPermutations_characterization [2, 2, 3] (by decide)
  exact ⟨h.1, h.2.2⟩

/-! ### C6: the renderer round trip — tokenizer lemmas -/

theorem option_map_flush (X : Option (List ITok)) (m : Nat) (f : List ITok → List ITok) :
    X.map (fun ts => flushNum (some m) (f ts)) =
      (X.map (fun ts => flushNum none (f ts))).map (fun ts => ITok.num m :: ts) := by
  cases X <;> rfl

theorem tokenizeAux_flush (m : Nat) (s : List Char) (hs : safeHead s) :
    tokenizeAux (some m) s = (tokenizeAux none s).map (fun ts => ITok.num m :: ts) := by
  cases s with
  | nil => rfl
  | cons c rest =>
    simp only [safeHead, List.mem_cons, List.not_mem_nil, or_false] at hs
    rcases hs with rfl | rfl | rfl | rfl | rfl | rfl | rfl | rfl
    · exact option_map_flush (tokenizeAux none rest) m (fun ts => ITok.bop Op.add :: ts)
    · exact option_map_flush (tokenizeAux none rest) m (fun ts => ITok.bop Op.sub :: ts)
    · exact option_map_flush (tokenizeAux none rest) m (fun ts => ITok.bop Op.mul :: ts)
    · exact option_map_flush (tokenizeAux none rest) m (fun ts => ITok.bop Op.div :: ts)
    · exact option_map_flush (tokenizeAux none rest) m (fun ts => ITok.bop Op.pow :: ts)
    · exact option_map_flush (tokenizeAux none rest) m (fun ts => ITok.bang :: ts)
    · exact option_map_flush (tokenizeAux none rest) m (fun ts => ITok.rpar :: ts)
    · exact option_map_flush (tokenizeAux none rest) m (fun ts => ts)

theorem char_digit_enum (c : Char) (h : c.isDigit = true) :
    c = '0' ∨ c = '1' ∨ c = '2' ∨ c = '3' ∨ c = '4' ∨
      c = '5' ∨ c = '6' ∨ c = '7' ∨ c = '8' ∨ c = '9' := by
  simp only [Char.isDigit, ge_iff_le, Bool.and_eq_true, decide_eq_true_eq] at h
  have h48 : 48 ≤ c.toNat := by
    have h1 := UInt32.le_def.mp h.1
    simpa [BitVec.le_def] using h1
  have h57 : c.toNat ≤ 57 := by
    have h1 := UInt32.le_def.mp h.2
    simpa [BitVec.le_def] using h1
  have hc : Char.ofNat c.toNat = c := Char.ofNat_toNat c
  set n := c.toNat with hn
  interval_cases n <;> rw [← hc] <;> decide

theorem tokenizeAux_digit_step (c : Char) (hc : c.isDigit = true) (pend : Option Nat)
    (rest : List Char) :
    tokenizeAux pend (c :: rest) =
      tokenizeAux (some (10 * pend.getD 0 + (c.toNat - 48))) rest := by
  rcases char_digit_enum c hc with rfl|rfl|rfl|rfl|rfl|rfl|rfl|rfl|rfl|rfl <;> rfl

theorem tokenizeAux_digits (ds : List Char) (hds : ∀ c ∈ ds, c.isDigit = true) :
    ∀ (m : Nat) (s : List Char), safeHead s →
      tokenizeAux (some m) (ds ++ s) =
        (tokenizeAux none s).map
          (fun ts => ITok.num (ds.foldl (fun a c => 10 * a + (c.toNat - 48)) m) :: ts) := by
  induction ds with
  | nil =>
    intro m s hs
    simpa using tokenizeAux_flush m s hs
  | cons d ds ih =>
    intro m s hs
    rw [List.cons_append, tokenizeAux_digit_step d (hds d (by simp)) (some m)]
    simp only [Option.getD_some, List.foldl_cons]
    exact ih (fun c hc => hds c (by simp [hc])) (10 * m + (d.toNat - 48)) s hs

theorem natToChars_isDigit (n : Nat) : ∀ c ∈ natToChars n, c.isDigit = true := by
  intro c hc
  have h := natToChars_digits n c hc
  simp only [Char.isDigit, ge_iff_le, Bool.and_eq_true, decide_eq_true_eq]
  refine ⟨UInt32.le_def.mpr (BitVec.le_def.mpr ?_), UInt32.le_def.mpr (BitVec.le_def.mpr ?_)⟩
  · simpa using h.1
  · simpa using h.2

theorem tokInv_num (z : Int) (hz : 0 ≤ z) : TokInv (intToChars z) [ITok.num z.toNat] := by
  intro s hs
  have hnz : intToChars z = natToChars z.toNat := by
    simp only [intToChars]
    rw [if_neg (by omega)]
  rw [hnz]
  obtain ⟨d, ds, hds⟩ : ∃ d ds, natToChars z.toNat = d :: ds := by
    cases h : natToChars z.toNat with
    | nil => exact absurd h (natToChars_ne_nil _)
    | cons d ds => exact ⟨d, ds, rfl⟩
  rw [hds, List.cons_append,
    tokenizeAux_digit_step d (natToChars_isDigit _ d (hds ▸ List.mem_cons_self _ _)) none,
    tokenizeAux_digits ds (fun c hc => natToChars_isDigit _ c (hds ▸ List.mem_cons_of_mem _ hc))
      _ s hs]
  have hval : ds.foldl (fun a c => 10 * a + (c.toNat - 48))
      (10 * (none : Option Nat).getD 0 + (d.toNat - 48)) = z.toNat := by
    have h1 : digitsToNat (natToChars z.toNat) = z.toNat := digitsToNat_natToChars _
    rw [hds] at h1
    simpa [digitsToNat, List.foldl_cons] using h1
  rw [hval]
  rfl


/-! ### C6: single-token reduction bridges and `TokInv` composition -/

theorem tok_step_add (X : List Char) :
    tokenizeAux none ('+' :: X) = (tokenizeAux none X).map (fun ts => ITok.bop Op.add :: ts) := rfl

theorem tok_step_sub (X : List Char) :
    tokenizeAux none ('-' :: X) = (tokenizeAux none X).map (fun ts => ITok.bop Op.sub :: ts) := rfl

theorem tok_step_mul (X : List Char) :
    tokenizeAux none ('*' :: X) = (tokenizeAux none X).map (fun ts => ITok.bop Op.mul :: ts) := rfl

theorem tok_step_div (X : List Char) :
    tokenizeAux none ('/' :: X) = (tokenizeAux none X).map (fun ts => ITok.bop Op.div :: ts) := rfl

theorem tok_step_pow (X : List Char) :
    tokenizeAux none ('^' :: X) = (tokenizeAux none X).map (fun ts => ITok.bop Op.pow :: ts) := rfl

theorem tok_step_bang (X : List Char) :
    tokenizeAux none ('!' :: X) = (tokenizeAux none X).map (fun ts => ITok.bang :: ts) := rfl

theorem tok_step_lpar (X : List Char) :
    tokenizeAux none ('(' :: X) = (tokenizeAux none X).map (fun ts => ITok.lpar :: ts) := rfl

theorem tok_step_rpar (X : List Char) :
    tokenizeAux none (')' :: X) = (tokenizeAux none X).map (fun ts => ITok.rpar :: ts) := rfl

theorem tok_step_sqrtlpar (X : List Char) :
    tokenizeAux none ('s' :: 'q' :: 'r' :: 't' :: '(' :: X) =
      (tokenizeAux none X).map (fun ts => ITok.sqrtlpar :: ts) := rfl

theorem tok_step_rootsep (X : List Char) :
    tokenizeAux none (' ' :: 'r' :: 'o' :: 'o' :: 't' :: ' ' :: X) =
      (tokenizeAux none X).map (fun ts => ITok.bop Op.root :: ts) := by
  have h1 : tokenizeAux none (' ' :: 'r' :: 'o' :: 'o' :: 't' :: ' ' :: X) =
      (tokenizeAux none ('r' :: 'o' :: 'o' :: 't' :: ' ' :: X)).map (fun ts => ts) := rfl
  have h2 : tokenizeAux none ('r' :: 'o' :: 'o' :: 't' :: ' ' :: X) =
      (tokenizeAux none (' ' :: X)).map (fun ts => ITok.bop Op.root :: ts) := rfl
  have h3 : tokenizeAux none (' ' :: X) = (tokenizeAux none X).map (fun ts => ts) := rfl
  rw [h1, h2, h3]
  cases tokenizeAux none X <;> rfl

theorem tokInv_append (T1 T2 : List Char) (toks1 toks2 : List ITok) (c : Char) (t : ITok)
    (h1 : TokInv T1 toks1) (h2 : TokInv T2 toks2)
    (hcsafe : c ∈ ['+', '-', '*', '/', '^', '!', ')', ' '])
    (hstep : ∀ X, tokenizeAux none (c :: X) = (tokenizeAux none X).map (fun ts => t :: ts)) :
    TokInv (T1 ++ c :: T2) (toks1 ++ t :: toks2) := by
  intro s hs
  rw [List.append_assoc, List.cons_append]
  rw [h1 (c :: (T2 ++ s)) (by simpa [safeHead] using hcsafe)]
  rw [hstep (T2 ++ s), h2 s hs]
  cases tokenizeAux none s <;> simp

theorem tokInv_append_root (T1 T2 : List Char) (toks1 toks2 : List ITok)
    (h1 : TokInv T1 toks1) (h2 : TokInv T2 toks2) :
    TokInv (T1 ++ ' ' :: 'r' :: 'o' :: 'o' :: 't' :: ' ' :: T2)
      (toks1 ++ ITok.bop Op.root :: toks2) := by
  intro s hs
  simp only [List.append_assoc, List.cons_append]
  rw [h1 _ (by simp [safeHead])]
  rw [tok_step_rootsep (T2 ++ s), h2 s hs]
  cases tokenizeAux none s <;> simp

theorem tokInv_paren (T : List Char) (toks : List ITok) (h : TokInv T toks) :
    TokInv ('(' :: (T ++ [')'])) (ITok.lpar :: (toks ++ [ITok.rpar])) := by
  intro s hs
  have e : ('(' :: (T ++ [')'])) ++ s = '(' :: (T ++ ')' :: s) := by simp
  rw [e, tok_step_lpar, h (')' :: s) (by simp [safeHead]), tok_step_rpar]
  cases tokenizeAux none s <;> simp

theorem tokInv_sqrt (T : List Char) (toks : List ITok) (h : TokInv T toks) :
    TokInv (['s', 'q', 'r', 't', '('] ++ T ++ [')'])
      (ITok.sqrtlpar :: (toks ++ [ITok.rpar])) := by
  intro s hs
  have e : (['s', 'q', 'r', 't', '('] ++ T ++ [')']) ++ s =
      's' :: 'q' :: 'r' :: 't' :: '(' :: (T ++ ')' :: s) := by simp
  rw [e, tok_step_sqrtlpar, h (')' :: s) (by simp [safeHead]), tok_step_rpar]
  cases tokenizeAux none s <;> simp

theorem tokInv_bang (T : List Char) (toks : List ITok) (h : TokInv T toks) :
    TokInv (T ++ ['!']) (toks ++ [ITok.bang]) := by
  intro s hs
  rw [List.append_assoc, List.singleton_append]
  rw [h ('!' :: s) (by simp [safeHead]), tok_step_bang s]
  cases tokenizeAux none s <;> simp


/-! ### C6: flushing pending operators through the shunting stack -/

theorem stopAt_mono (os : List StkSym) (q p : Nat) (hqp : q ≤ p) (h : stopAt os q) :
    stopAt os p := by
  cases os with
  | nil => trivial
  | cons s os =>
    cases s with
    | op o => exact Nat.lt_of_lt_of_le h hqp
    | lpar => trivial
    | sqrtPar => trivial

theorem precedenceOf_lt_four (o : Op) : precedenceOf o < 4 := by
  cases o <;> decide

theorem stopAt_four (os : List StkSym) : stopAt os 4 := by
  cases os with
  | nil => trivial
  | cons s os =>
    cases s with
    | op o => exact precedenceOf_lt_four o
    | lpar => trivial
    | sqrtPar => trivial

theorem popWhileGE_stop (q : Nat) (vals : List JN) (os : List StkSym) (h : stopAt os q) :
    popWhileGE q vals os = some (vals, os) := by
  cases os with
  | nil => rfl
  | cons s os' =>
    cases s with
    | op o =>
      have ho : precedenceOf o < q := h
      rw [popWhileGE.eq_def]
      simp only [if_neg (Nat.not_le.mpr ho)]
    | lpar => rfl
    | sqrtPar => rfl

theorem pendInv_shape (pvals : List JN) (v : JN) (hp : PendInv pvals [] v) : pvals = [v] := by
  have h := hp []
  simp only [flushOps, List.append_nil] at h
  exact Option.some_inj.mp h

theorem pendInv_cons (pvals : List JN) (o : Op) (pend : List StkSym) (v : JN)
    (hp : PendInv pvals (StkSym.op o :: pend) v) :
    ∃ y x vs r, pvals = y :: x :: vs ∧ applyBOp o x y = some r ∧ PendInv (r :: vs) pend v := by
  have h0 := hp []
  cases pvals with
  | nil => simp [flushOps] at h0
  | cons y pvals' =>
    cases pvals' with
    | nil => simp [flushOps] at h0
    | cons x vs =>
      simp only [List.cons_append, flushOps] at h0
      cases happly : applyBOp o x y with
      | none => simp [happly] at h0
      | some r =>
        refine ⟨y, x, vs, r, rfl, happly, ?_⟩
        intro vals
        have h1 := hp vals
        simp only [List.cons_append, flushOps, happly] at h1
        simpa using h1

theorem pendInv_popWhileGE (q : Nat) :
    ∀ (pend : List StkSym) (pvals : List JN) (v : JN),
      (∀ s ∈ pend, ∃ o, s = StkSym.op o ∧ q ≤ precedenceOf o) →
      PendInv pvals pend v →
      ∀ (vals : List JN) (os : List StkSym), stopAt os q →
        popWhileGE q (pvals ++ vals) (pend ++ os) = some (v :: vals, os) := by
  intro pend
  induction pend with
  | nil =>
    intro pvals v hops hp vals os hstop
    rw [pendInv_shape pvals v hp]
    simpa using popWhileGE_stop q (v :: vals) os hstop
  | cons s pend ih =>
    intro pvals v hops hp vals os hstop
    obtain ⟨o, rfl, hqo⟩ : ∃ o, s = StkSym.op o ∧ q ≤ precedenceOf o := hops s (by simp)
    obtain ⟨y, x, vs, r, rfl, happly, hp2⟩ := pendInv_cons pvals o pend v hp
    rw [List.cons_append, List.cons_append, List.cons_append]
    rw [popWhileGE, if_pos hqo]
    simp only [happly]
    have h2 := ih (r :: vs) v (fun s hs => hops s (by simp [hs])) hp2 vals os hstop
    simpa using h2

theorem pendInv_popToParen :
    ∀ (pend : List StkSym) (pvals : List JN) (v : JN),
      (∀ s ∈ pend, ∃ o, s = StkSym.op o) →
      PendInv pvals pend v →
      ∀ (vals : List JN) (os : List StkSym),
        popToParen (pvals ++ vals) (pend ++ StkSym.lpar :: os) = some (v :: vals, os) := by
  intro pend
  induction pend with
  | nil =>
    intro pvals v hops hp vals os
    rw [pendInv_shape pvals v hp]
    rfl
  | cons s pend ih =>
    intro pvals v hops hp vals os
    obtain ⟨o, rfl⟩ : ∃ o, s = StkSym.op o := hops s (by simp)
    obtain ⟨y, x, vs, r, rfl, happly, hp2⟩ := pendInv_cons pvals o pend v hp
    rw [List.cons_append, List.cons_append, List.cons_append]
    rw [popToParen]
    simp only [happly]
    have h2 := ih (r :: vs) v (fun s hs => hops s (by simp [hs])) hp2 vals os
    simpa using h2

theorem pendInv_popToParenSqrt :
    ∀ (pend : List StkSym) (pvals : List JN) (v : JN),
      (∀ s ∈ pend, ∃ o, s = StkSym.op o) →
      PendInv pvals pend v →
      ∀ (vals : List JN) (os : List StkSym),
        popToParen (pvals ++ vals) (pend ++ StkSym.sqrtPar :: os) =
          (sqrtStep v).map (fun w => (w :: vals, os)) := by
  intro pend
  induction pend with
  | nil =>
    intro pvals v hops hp vals os
    rw [pendInv_shape pvals v hp]
    rfl
  | cons s pend ih =>
    intro pvals v hops hp vals os
    obtain ⟨o, rfl⟩ : ∃ o, s = StkSym.op o := hops s (by simp)
    obtain ⟨y, x, vs, r, rfl, happly, hp2⟩ := pendInv_cons pvals o pend v hp
    rw [List.cons_append, List.cons_append, List.cons_append]
    rw [popToParen]
    simp only [happly]
    have h2 := ih (r :: vs) v (fun s hs => hops s (by simp [hs])) hp2 vals os
    simpa using h2

theorem flushOps_append (l1 l2 : List StkSym) :
    ∀ vals, flushOps vals (l1 ++ l2) = (flushOps vals l1).bind (fun vs => flushOps vs l2) := by
  induction l1 with
  | nil => intro vals; rfl
  | cons s l1 ih =>
    intro vals
    cases s with
    | op o =>
      rw [List.cons_append]
      cases vals with
      | nil => rfl
      | cons y vals2 =>
        cases vals2 with
        | nil => rfl
        | cons x vs =>
          show (match applyBOp o x y with
              | some r => flushOps (r :: vs) (l1 ++ l2)
              | none => none) =
            ((match applyBOp o x y with
              | some r => flushOps (r :: vs) l1
              | none => none).bind fun vs => flushOps vs l2)
          cases applyBOp o x y with
          | some r => exact ih (r :: vs)
          | none => rfl
    | lpar => rfl
    | sqrtPar => rfl


/-! ### C6: feeding rendered subterms through the shunting evaluation -/

theorem option_bind_some {α β : Type} (a : α) (f : α → Option β) :
    (some a >>= f) = f a := rfl

theorem feed_paren (toks : List ITok) (p : Nat) (v : JN) (h : ShInv toks p v) :
    ∀ vals os, List.foldlM shuntStep (vals, os) (ITok.lpar :: (toks ++ [ITok.rpar])) =
      some (v :: vals, os) := by
  obtain ⟨pvals, pend, hops, hp4, hfeed, hpend⟩ := h
  intro vals os
  have e1 : shuntStep (vals, os) ITok.lpar = some (vals, StkSym.lpar :: os) := rfl
  rw [List.foldlM_cons, e1, option_bind_some, List.foldlM_append,
    hfeed vals (StkSym.lpar :: os) trivial, option_bind_some, List.foldlM_cons]
  have e2 : shuntStep (pvals ++ vals, pend ++ StkSym.lpar :: os) ITok.rpar =
      popToParen (pvals ++ vals) (pend ++ StkSym.lpar :: os) := rfl
  rw [e2, pendInv_popToParen pend pvals v
    (fun s hs => (hops s hs).imp (fun o ho => ho.1)) hpend vals os, option_bind_some]
  rfl

theorem feed_left_and_op (o : Op) (toksa : List ITok) (pa : Nat) (va : JN)
    (ha : ShInv toksa pa va) (c : Prop) [Decidable c] (hc : ¬ c → precedenceOf o ≤ pa) :
    ∀ vals os, stopAt os (precedenceOf o) →
      List.foldlM shuntStep (vals, os)
        ((if c then ITok.lpar :: (toksa ++ [ITok.rpar]) else toksa) ++ [ITok.bop o]) =
        some (va :: vals, StkSym.op o :: os) := by
  intro vals os hstop
  rw [List.foldlM_append]
  by_cases hcc : c
  · rw [if_pos hcc, feed_paren toksa pa va ha vals os, option_bind_some, List.foldlM_cons]
    have e : shuntStep (va :: vals, os) (ITok.bop o) =
        (popWhileGE (precedenceOf o) (va :: vals) os).map
          (fun st => (st.1, StkSym.op o :: st.2)) := rfl
    rw [e, popWhileGE_stop (precedenceOf o) (va :: vals) os hstop]
    rfl
  · obtain ⟨pvals, pend, hops, hp4, hfeed, hpend⟩ := ha
    rw [if_neg hcc, hfeed vals os (stopAt_mono os (precedenceOf o) pa (hc hcc) hstop),
      option_bind_some, List.foldlM_cons]
    have e : shuntStep (pvals ++ vals, pend ++ os) (ITok.bop o) =
        (popWhileGE (precedenceOf o) (pvals ++ vals) (pend ++ os)).map
          (fun st => (st.1, StkSym.op o :: st.2)) := rfl
    have hops2 : ∀ s ∈ pend, ∃ o2, s = StkSym.op o2 ∧ precedenceOf o ≤ precedenceOf o2 := by
      intro s hs
      obtain ⟨o2, rfl, hpo⟩ := hops s hs
      exact ⟨o2, rfl, Nat.le_trans (hc hcc) hpo⟩
    rw [e, pendInv_popWhileGE (precedenceOf o) pend pvals va hops2 hpend vals os hstop]
    rfl

theorem shInv_num (n : Nat) : ShInv [ITok.num n] 4 (JN.fin (n : Int)) := by
  refine ⟨[JN.fin (n : Int)], [], by simp, fun _ => ⟨rfl, rfl⟩, ?_, fun vals => rfl⟩
  intro vals os hstop
  rfl

theorem shInv_bang (toks : List ITok) (z : Int) (hz : ¬ z < 0)
    (h : ShInv toks 4 (JN.fin z)) :
    ShInv (toks ++ [ITok.bang]) 4 (factorial z) := by
  obtain ⟨pvals, pend, hops, hp4, hfeed, hpend⟩ := h
  obtain ⟨rfl, rfl⟩ := hp4 rfl
  refine ⟨[factorial z], [], by simp, fun _ => ⟨rfl, rfl⟩, ?_, fun vals => rfl⟩
  intro vals os hstop
  rw [List.foldlM_append, hfeed vals os (stopAt_four os), option_bind_some, List.foldlM_cons]
  have e : shuntStep (([JN.fin z] : List JN) ++ vals, ([] : List StkSym) ++ os) ITok.bang =
      (bangStep (JN.fin z)).map (fun w => (w :: vals, os)) := rfl
  rw [e]
  have e2 : bangStep (JN.fin z) = some (factorial z) := by
    simp [bangStep, if_neg hz]
  rw [e2]
  rfl

theorem shInv_sqrt (toks : List ITok) (p : Nat) (z r : Int)
    (hsq : jsSqrtInt z = some r)
    (h : ShInv toks p (JN.fin z)) :
    ShInv (ITok.sqrtlpar :: (toks ++ [ITok.rpar])) 4 (JN.fin r) := by
  obtain ⟨pvals, pend, hops, hp4, hfeed, hpend⟩ := h
  refine ⟨[JN.fin r], [], by simp, fun _ => ⟨rfl, rfl⟩, ?_, fun vals => rfl⟩
  intro vals os hstop
  have e1 : shuntStep (vals, os) ITok.sqrtlpar = some (vals, StkSym.sqrtPar :: os) := rfl
  rw [List.foldlM_cons, e1, option_bind_some, List.foldlM_append,
    hfeed vals (StkSym.sqrtPar :: os) trivial, option_bind_some, List.foldlM_cons]
  have e2 : shuntStep (pvals ++ vals, pend ++ StkSym.sqrtPar :: os) ITok.rpar =
      popToParen (pvals ++ vals) (pend ++ StkSym.sqrtPar :: os) := rfl
  rw [e2, pendInv_popToParenSqrt pend pvals (JN.fin z)
    (fun s hs => (hops s hs).imp (fun o ho => ho.1)) hpend vals os]
  have e3 : sqrtStep (JN.fin z) = some (JN.fin r) := by
    simp [sqrtStep, hsq]
  rw [e3]
  rfl


/-! ### C6: the binary-operator entry constructors -/

theorem applyBOp_nonroot (o : Op) (honr : o ≠ Op.root) (va vb : JN) (r : Int)
    (happly : applyBin o va vb = some r) :
    applyBOp o va vb = some (JN.fin r) := by
  simp [applyBOp, if_neg honr, happly]

theorem shInv_bin (o : Op) (honr : o ≠ Op.root)
    (hq1 : 1 ≤ precedenceOf o) (hq3 : precedenceOf o ≤ 3)
    (toksa toksb : List ITok) (pa pb : Nat) (va vb : JN) (r : Int)
    (ha : ShInv toksa pa va) (hb : ShInv toksb pb vb)
    (happly : applyBin o va vb = some r) :
    ShInv ((if pa < precedenceOf o then ITok.lpar :: (toksa ++ [ITok.rpar]) else toksa) ++
        ITok.bop o :: (if pb ≤ precedenceOf o then ITok.lpar :: (toksb ++ [ITok.rpar]) else toksb))
      (precedenceOf o) (JN.fin r) := by
  have hfeedA := feed_left_and_op o toksa pa va ha (pa < precedenceOf o)
    (fun hcc => Nat.le_of_not_lt hcc)
  by_cases hpb : pb ≤ precedenceOf o
  · rw [if_pos hpb]
    refine ⟨[vb, va], [StkSym.op o], ?_, ?_, ?_, ?_⟩
    · intro s hs
      simp only [List.mem_singleton] at hs
      subst hs
      exact ⟨o, rfl, Nat.le_refl _⟩
    · intro h4
      exact absurd (h4 ▸ hq3) (by omega)
    · intro vals os hstop
      rw [show (if pa < precedenceOf o then ITok.lpar :: (toksa ++ [ITok.rpar]) else toksa) ++
            ITok.bop o :: (ITok.lpar :: (toksb ++ [ITok.rpar])) =
          ((if pa < precedenceOf o then ITok.lpar :: (toksa ++ [ITok.rpar]) else toksa) ++
              [ITok.bop o]) ++ (ITok.lpar :: (toksb ++ [ITok.rpar])) from by simp]
      rw [List.foldlM_append, hfeedA vals os hstop, option_bind_some]
      rw [feed_paren toksb pb vb hb (va :: vals) (StkSym.op o :: os)]
      rfl
    · intro vals
      show flushOps (vb :: va :: vals) [StkSym.op o] = some (JN.fin r :: vals)
      simp [flushOps, applyBOp_nonroot o honr va vb r happly]
  · rw [if_neg hpb]
    obtain ⟨pvalsb, pendb, hopsb, hp4b, hfeedb, hpendb⟩ := hb
    refine ⟨pvalsb ++ [va], pendb ++ [StkSym.op o], ?_, ?_, ?_, ?_⟩
    · intro s hs
      rcases List.mem_append.mp hs with hs | hs
      · obtain ⟨o2, rfl, hpo⟩ := hopsb s hs
        exact ⟨o2, rfl, by omega⟩
      · simp only [List.mem_singleton] at hs
        subst hs
        exact ⟨o, rfl, Nat.le_refl _⟩
    · intro h4
      exact absurd (h4 ▸ hq3) (by omega)
    · intro vals os hstop
      rw [show (if pa < precedenceOf o then ITok.lpar :: (toksa ++ [ITok.rpar]) else toksa) ++
            ITok.bop o :: toksb =
          ((if pa < precedenceOf o then ITok.lpar :: (toksa ++ [ITok.rpar]) else toksa) ++
              [ITok.bop o]) ++ toksb from by simp]
      rw [List.foldlM_append, hfeedA vals os hstop, option_bind_some]
      rw [hfeedb (va :: vals) (StkSym.op o :: os) (Nat.not_le.mp hpb)]
      simp [List.append_assoc]
    · intro vals
      rw [show (pvalsb ++ [va]) ++ vals = pvalsb ++ (va :: vals) from by simp]
      rw [flushOps_append pendb [StkSym.op o] (pvalsb ++ (va :: vals)), hpendb (va :: vals),
        Option.some_bind]
      show flushOps (vb :: va :: vals) [StkSym.op o] = some (JN.fin r :: vals)
      simp [flushOps, applyBOp_nonroot o honr va vb r happly]

theorem shInv_root (toksa toksb : List ITok) (pa pb : Nat) (va vb : JN) (r : Int)
    (hpa4 : pa ≤ 4) (hpa3 : pa ≠ 3)
    (ha : ShInv toksa pa va) (hb : ShInv toksb pb vb)
    (happly : applyBin Op.root va vb = some r) :
    ShInv ((if pb ≤ 3 then ITok.lpar :: (toksb ++ [ITok.rpar]) else toksb) ++
        ITok.bop Op.root :: (if pa < 3 then ITok.lpar :: (toksa ++ [ITok.rpar]) else toksa))
      3 (JN.fin r) := by
  have hfeedB := feed_left_and_op Op.root toksb pb vb hb (pb ≤ 3)
    (fun hcc => Nat.le_of_lt (Nat.not_le.mp hcc))
  have happB : applyBOp Op.root vb va = some (JN.fin r) := by
    simp [applyBOp, happly]
  refine ⟨[va, vb], [StkSym.op Op.root], ?_, ?_, ?_, ?_⟩
  · intro s hs
    simp only [List.mem_singleton] at hs
    subst hs
    exact ⟨Op.root, rfl, Nat.le_refl _⟩
  · intro h4
    exact absurd h4 (by omega)
  · intro vals os hstop
    rw [show (if pb ≤ 3 then ITok.lpar :: (toksb ++ [ITok.rpar]) else toksb) ++
          ITok.bop Op.root :: (if pa < 3 then ITok.lpar :: (toksa ++ [ITok.rpar]) else toksa) =
        ((if pb ≤ 3 then ITok.lpar :: (toksb ++ [ITok.rpar]) else toksb) ++
            [ITok.bop Op.root]) ++
          (if pa < 3 then ITok.lpar :: (toksa ++ [ITok.rpar]) else toksa) from by simp]
    rw [List.foldlM_append, hfeedB vals os hstop, option_bind_some]
    by_cases hpa : pa < 3
    · rw [if_pos hpa, feed_paren toksa pa va ha (vb :: vals) (StkSym.op Op.root :: os)]
      rfl
    · have hpa2 : pa = 4 := by omega
      obtain ⟨pvalsa, penda, hopsa, hp4a, hfeeda, hpenda⟩ := ha
      obtain ⟨rfl, rfl⟩ := hp4a hpa2
      rw [if_neg hpa, hfeeda (vb :: vals) (StkSym.op Op.root :: os) (by rw [hpa2]; exact stopAt_four _)]
      rfl
  · intro vals
    show flushOps (va :: vb :: vals) [StkSym.op Op.root] = some (JN.fin r :: vals)
    simp [flushOps, happB]


/-! ### C6: correctness payload of one renderer step -/

theorem goodEntry_num (z : Int) (hz : 0 ≤ z) : GoodEntry (intToChars z) 4 (JN.fin z) := by
  refine ⟨by omega, Nat.le_refl _, [ITok.num z.toNat], tokInv_num z hz, ?_⟩
  have h := shInv_num z.toNat
  rwa [Int.toNat_of_nonneg hz] at h

theorem goodEntry_bang (T : List Char) (z : Int) (hz : ¬ z < 0)
    (h : GoodEntry T 4 (JN.fin z)) : GoodEntry (T ++ ['!']) 4 (factorial z) := by
  obtain ⟨h1, h4, toks, htok, hsh⟩ := h
  exact ⟨h1, h4, toks ++ [ITok.bang], tokInv_bang T toks htok, shInv_bang toks z hz hsh⟩

theorem goodEntry_sqrt (T : List Char) (p : Nat) (z r : Int) (hsq : jsSqrtInt z = some r)
    (h : GoodEntry T p (JN.fin z)) :
    GoodEntry (['s', 'q', 'r', 't', '('] ++ T ++ [')']) 4 (JN.fin r) := by
  obtain ⟨h1, h4, toks, htok, hsh⟩ := h
  exact ⟨by omega, Nat.le_refl _, ITok.sqrtlpar :: (toks ++ [ITok.rpar]),
    tokInv_sqrt T toks htok, shInv_sqrt toks p z r hsq hsh⟩

theorem goodEntry_bin (o : Op) (honr : o ≠ Op.root)
    (hq1 : 1 ≤ precedenceOf o) (hq3 : precedenceOf o ≤ 3)
    (hcsafe : opChar o ∈ ['+', '-', '*', '/', '^', '!', ')', ' '])
    (hstep : ∀ X, tokenizeAux none (opChar o :: X) =
      (tokenizeAux none X).map (fun ts => ITok.bop o :: ts))
    (ea eb : InfixEnt) (va vb : JN) (r : Int)
    (ha : GoodEntry ea.val ea.prec va) (hb : GoodEntry eb.val eb.prec vb)
    (happly : applyBin o va vb = some r) :
    GoodEntry ((if ea.prec < precedenceOf o then '(' :: (ea.val ++ [')']) else ea.val) ++
        opChar o :: (if eb.prec ≤ precedenceOf o then '(' :: (eb.val ++ [')']) else eb.val))
      (precedenceOf o) (JN.fin r) := by
  obtain ⟨ha1, ha4, toksa, htoka, hsha⟩ := ha
  obtain ⟨hb1, hb4, toksb, htokb, hshb⟩ := hb
  refine ⟨hq1, by omega,
    (if ea.prec < precedenceOf o then ITok.lpar :: (toksa ++ [ITok.rpar]) else toksa) ++
      ITok.bop o :: (if eb.prec ≤ precedenceOf o then ITok.lpar :: (toksb ++ [ITok.rpar])
        else toksb),
    ?_, shInv_bin o honr hq1 hq3 toksa toksb ea.prec eb.prec va vb r hsha hshb happly⟩
  by_cases hpa : ea.prec < precedenceOf o
  · by_cases hpb : eb.prec ≤ precedenceOf o
    · simp only [if_pos hpa, if_pos hpb]
      exact tokInv_append _ _ _ _ (opChar o) (ITok.bop o)
        (tokInv_paren _ _ htoka) (tokInv_paren _ _ htokb) hcsafe hstep
    · simp only [if_pos hpa, if_neg hpb]
      exact tokInv_append _ _ _ _ (opChar o) (ITok.bop o)
        (tokInv_paren _ _ htoka) htokb hcsafe hstep
  · by_cases hpb : eb.prec ≤ precedenceOf o
    · simp only [if_neg hpa, if_pos hpb]
      exact tokInv_append _ _ _ _ (opChar o) (ITok.bop o)
        htoka (tokInv_paren _ _ htokb) hcsafe hstep
    · simp only [if_neg hpa, if_neg hpb]
      exact tokInv_append _ _ _ _ (opChar o) (ITok.bop o) htoka htokb hcsafe hstep

theorem goodEntry_root (ea eb : InfixEnt) (va vb : JN) (r : Int)
    (hpa3 : ea.prec ≠ 3)
    (ha : GoodEntry ea.val ea.prec va) (hb : GoodEntry eb.val eb.prec vb)
    (happly : applyBin Op.root va vb = some r) :
    GoodEntry ((if eb.prec ≤ 3 then '(' :: (eb.val ++ [')']) else eb.val) ++
        ' ' :: 'r' :: 'o' :: 'o' :: 't' :: ' ' ::
          (if ea.prec < 3 then '(' :: (ea.val ++ [')']) else ea.val))
      3 (JN.fin r) := by
  obtain ⟨ha1, ha4, toksa, htoka, hsha⟩ := ha
  obtain ⟨hb1, hb4, toksb, htokb, hshb⟩ := hb
  refine ⟨by omega, by omega,
    (if eb.prec ≤ 3 then ITok.lpar :: (toksb ++ [ITok.rpar]) else toksb) ++
      ITok.bop Op.root :: (if ea.prec < 3 then ITok.lpar :: (toksa ++ [ITok.rpar]) else toksa),
    ?_, shInv_root toksa toksb ea.prec eb.prec va vb r ha4 hpa3 hsha hshb happly⟩
  by_cases hpb : eb.prec ≤ 3
  · by_cases hpa : ea.prec < 3
    · simp only [if_pos hpb, if_pos hpa]
      exact tokInv_append_root _ _ _ _ (tokInv_paren _ _ htokb) (tokInv_paren _ _ htoka)
    · simp only [if_pos hpb, if_neg hpa]
      exact tokInv_append_root _ _ _ _ (tokInv_paren _ _ htokb) htoka
  · by_cases hpa : ea.prec < 3
    · simp only [if_neg hpb, if_pos hpa]
      exact tokInv_append_root _ _ _ _ htokb (tokInv_paren _ _ htoka)
    · simp only [if_neg hpb, if_neg hpa]
      exact tokInv_append_root _ _ _ _ htokb htoka


/-! ### C6: one simulation step for a binary operator token -/

theorem goodStack_shape2 (rs : List InfixEnt) (b a : JN) (vs : List JN)
    (hgs : GoodStack rs (b :: a :: vs)) :
    ∃ eb ea rs2, rs = eb :: ea :: rs2 ∧ GoodEntry eb.val eb.prec b ∧
      GoodEntry ea.val ea.prec a ∧ GoodStack rs2 vs := by
  cases rs with
  | nil => exact (hgs : False).elim
  | cons eb rs1 =>
    cases rs1 with
    | nil => exact (hgs.2 : False).elim
    | cons ea rs2 => exact ⟨eb, ea, rs2, rfl, hgs.1, hgs.2.1, hgs.2.2⟩

theorem sim_step_bin (o : Op) (vs vs1 : List JN) (rs : List InfixEnt) (ps1 : List Nat)
    (hq1 : 1 ≤ precedenceOf o) (hq3 : precedenceOf o ≤ 3)
    (hcase : o = Op.root ∨ (o ≠ Op.root ∧ opChar o ∈ ['+', '-', '*', '/', '^', '!', ')', ' '] ∧
      ∀ X, tokenizeAux none (opChar o :: X) =
        (tokenizeAux none X).map (fun ts => ITok.bop o :: ts)))
    (hrednil : evalStep [] (Tok.op o) = none)
    (hredone : ∀ b, evalStep [b] (Tok.op o) = none)
    (hred : ∀ b a vs2, evalStep (b :: a :: vs2) (Tok.op o) =
      (match applyBin o a b with | some r => some (JN.fin r :: vs2) | none => none))
    (hok2 : ∀ pb pa rest, renderOKStep (pb :: pa :: rest) (Tok.op o) =
      if o = Op.root ∧ pa = 3 then none else some (precedenceOf o :: rest))
    (hrender : ∀ eb ea rest, rpnToInfixStep (eb :: ea :: rest) (Tok.op o) =
      ⟨if o = Op.root then
          (if eb.prec ≤ precedenceOf o then '(' :: (eb.val ++ [')']) else eb.val) ++
            ' ' :: 'r' :: 'o' :: 'o' :: 't' :: ' ' ::
              (if ea.prec < precedenceOf o then '(' :: (ea.val ++ [')']) else ea.val)
        else
          (if ea.prec < precedenceOf o then '(' :: (ea.val ++ [')']) else ea.val) ++
            opChar o :: (if eb.prec ≤ precedenceOf o then '(' :: (eb.val ++ [')']) else eb.val),
        precedenceOf o⟩ :: rest)
    (hgs : GoodStack rs vs)
    (hstep : evalStep vs (Tok.op o) = some vs1)
    (hokstep : renderOKStep (rs.map InfixEnt.prec) (Tok.op o) = some ps1) :
    GoodStack (rpnToInfixStep rs (Tok.op o)) vs1 ∧
      (rpnToInfixStep rs (Tok.op o)).map InfixEnt.prec = ps1 := by
  cases vs with
  | nil => rw [hrednil] at hstep; exact Option.noConfusion hstep
  | cons b vs2 =>
    cases vs2 with
    | nil => rw [hredone b] at hstep; exact Option.noConfusion hstep
    | cons a vs3 =>
      obtain ⟨eb, ea, rs2, rfl, hgeb, hgea, hgs2⟩ := goodStack_shape2 rs b a vs3 hgs
      rw [hred b a vs3] at hstep
      rw [show (eb :: ea :: rs2).map InfixEnt.prec =
        eb.prec :: ea.prec :: rs2.map InfixEnt.prec from rfl] at hokstep
      rw [hok2 eb.prec ea.prec (rs2.map InfixEnt.prec)] at hokstep
      cases happ : applyBin o a b with
      | none => rw [happ] at hstep; exact Option.noConfusion hstep
      | some r =>
        rw [happ] at hstep
        obtain rfl := Option.some_inj.mp hstep
        rw [hrender eb ea rs2]
        rcases hcase with rfl | ⟨honr, hsafe, hcstep⟩
        · by_cases hpa3 : ea.prec = 3
          · rw [if_pos ⟨rfl, hpa3⟩] at hokstep
            exact Option.noConfusion hokstep
          · rw [if_neg (by simp [hpa3])] at hokstep
            obtain rfl := Option.some_inj.mp hokstep
            exact ⟨⟨goodEntry_root ea eb a b r hpa3 hgea hgeb happ, hgs2⟩, rfl⟩
        · rw [if_neg (by simp [honr])] at hokstep
          obtain rfl := Option.some_inj.mp hokstep
          rw [if_neg honr]
          exact ⟨⟨goodEntry_bin o honr hq1 hq3 hsafe hcstep ea eb a b r hgea hgeb happ,
            hgs2⟩, rfl⟩


/-! ### C6: the main simulation induction -/

theorem shunt_render_sim (rpn : List Tok) :
    ∀ (vs vs2 : List JN) (rs : List InfixEnt) (ps2 : List Nat),
      (∀ z, Tok.num z ∈ rpn → 0 ≤ z) →
      GoodStack rs vs →
      List.foldlM evalStep vs rpn = some vs2 →
      List.foldlM renderOKStep (rs.map InfixEnt.prec) rpn = some ps2 →
      GoodStack (List.foldl rpnToInfixStep rs rpn) vs2 ∧
        (List.foldl rpnToInfixStep rs rpn).map InfixEnt.prec = ps2 := by
  induction rpn with
  | nil =>
    intro vs vs2 rs ps2 hnum hgs heval hok
    obtain rfl : vs = vs2 := Option.some_inj.mp heval
    obtain rfl : rs.map InfixEnt.prec = ps2 := Option.some_inj.mp hok
    exact ⟨hgs, rfl⟩
  | cons tok rest ih =>
    intro vs vs2 rs ps2 hnum hgs heval hok
    rw [List.foldlM_cons] at heval hok
    obtain ⟨vs1, hstep, heval2⟩ := Option.bind_eq_some.mp heval
    obtain ⟨ps1, hokstep, hok2⟩ := Option.bind_eq_some.mp hok
    rw [List.foldl_cons]
    have hnum2 : ∀ z, Tok.num z ∈ rest → 0 ≤ z :=
      fun z hz => hnum z (List.mem_cons_of_mem _ hz)
    cases tok with
    | num z =>
      obtain rfl : JN.fin z :: vs = vs1 := Option.some_inj.mp hstep
      obtain rfl : (4 : Nat) :: rs.map InfixEnt.prec = ps1 := Option.some_inj.mp hokstep
      exact ih (JN.fin z :: vs) vs2 (⟨intToChars z, 4⟩ :: rs) ps2 hnum2
        ⟨goodEntry_num z (hnum z (by simp)), hgs⟩ heval2 hok2
    | op o =>
      cases o with
      | fact =>
        cases vs with
        | nil => exact Option.noConfusion hstep
        | cons av vs3 =>
          cases av with
          | inf => exact Option.noConfusion hstep
          | fin z =>
            have hstep2 : (if z < 0 then none else some (factorial z :: vs3)) = some vs1 :=
              hstep
            by_cases hz : z < 0
            · rw [if_pos hz] at hstep2
              exact Option.noConfusion hstep2
            · rw [if_neg hz] at hstep2
              obtain rfl := Option.some_inj.mp hstep2
              cases rs with
              | nil => exact ((hgs : False)).elim
              | cons ea rs2 =>
                have hgs2 : GoodEntry ea.val ea.prec (JN.fin z) ∧ GoodStack rs2 vs3 := hgs
                have hok3 : (if ea.prec = 4 then some ((4 : Nat) :: rs2.map InfixEnt.prec)
                    else none) = some ps1 := hokstep
                by_cases hp4 : ea.prec = 4
                · rw [if_pos hp4] at hok3
                  obtain rfl := Option.some_inj.mp hok3
                  exact ih (factorial z :: vs3) vs2 (⟨ea.val ++ ['!'], 4⟩ :: rs2) ps2 hnum2
                    ⟨goodEntry_bang ea.val z hz (hp4 ▸ hgs2.1), hgs2.2⟩ heval2 hok2
                · rw [if_neg hp4] at hok3
                  exact Option.noConfusion hok3
      | sqrt =>
        cases vs with
        | nil => exact Option.noConfusion hstep
        | cons av vs3 =>
          cases av with
          | inf => exact Option.noConfusion hstep
          | fin z =>
            have hstep2 : (match jsSqrtInt z with
                | some r => some (JN.fin r :: vs3) | none => none) = some vs1 := hstep
            cases hsq : jsSqrtInt z with
            | none => rw [hsq] at hstep2; exact Option.noConfusion hstep2
            | some r =>
              rw [hsq] at hstep2
              obtain rfl := Option.some_inj.mp hstep2
              cases rs with
              | nil => exact ((hgs : False)).elim
              | cons ea rs2 =>
                have hgs2 : GoodEntry ea.val ea.prec (JN.fin z) ∧ GoodStack rs2 vs3 := hgs
                obtain rfl : (4 : Nat) :: rs2.map InfixEnt.prec = ps1 :=
                  Option.some_inj.mp hokstep
                exact ih (JN.fin r :: vs3) vs2
                  (⟨['s', 'q', 'r', 't', '('] ++ ea.val ++ [')'], 4⟩ :: rs2) ps2 hnum2
                  ⟨goodEntry_sqrt ea.val ea.prec z r hsq hgs2.1, hgs2.2⟩ heval2 hok2
      | add =>
        obtain ⟨hnew, rfl⟩ := sim_step_bin Op.add vs vs1 rs ps1 (by decide) (by decide)
          (Or.inr ⟨by decide, by decide, tok_step_add⟩) rfl (fun b => rfl)
          (fun b a vs3 => rfl) (fun pb pa r2 => rfl) (fun eb ea r2 => rfl)
          hgs hstep hokstep
        exact ih vs1 vs2 (rpnToInfixStep rs (Tok.op Op.add)) ps2 hnum2 hnew heval2 hok2
      | sub =>
        obtain ⟨hnew, rfl⟩ := sim_step_bin Op.sub vs vs1 rs ps1 (by decide) (by decide)
          (Or.inr ⟨by decide, by decide, tok_step_sub⟩) rfl (fun b => rfl)
          (fun b a vs3 => rfl) (fun pb pa r2 => rfl) (fun eb ea r2 => rfl)
          hgs hstep hokstep
        exact ih vs1 vs2 (rpnToInfixStep rs (Tok.op Op.sub)) ps2 hnum2 hnew heval2 hok2
      | mul =>
        obtain ⟨hnew, rfl⟩ := sim_step_bin Op.mul vs vs1 rs ps1 (by decide) (by decide)
          (Or.inr ⟨by decide, by decide, tok_step_mul⟩) rfl (fun b => rfl)
          (fun b a vs3 => rfl) (fun pb pa r2 => rfl) (fun eb ea r2 => rfl)
          hgs hstep hokstep
        exact ih vs1 vs2 (rpnToInfixStep rs (Tok.op Op.mul)) ps2 hnum2 hnew heval2 hok2
      | div =>
        obtain ⟨hnew, rfl⟩ := sim_step_bin Op.div vs vs1 rs ps1 (by decide) (by decide)
          (Or.inr ⟨by decide, by decide, tok_step_div⟩) rfl (fun b => rfl)
          (fun b a vs3 => rfl) (fun pb pa r2 => rfl) (fun eb ea r2 => rfl)
          hgs hstep hokstep
        exact ih vs1 vs2 (rpnToInfixStep rs (Tok.op Op.div)) ps2 hnum2 hnew heval2 hok2
      | pow =>
        obtain ⟨hnew, rfl⟩ := sim_step_bin Op.pow vs vs1 rs ps1 (by decide) (by decide)
          (Or.inr ⟨by decide, by decide, tok_step_pow⟩) rfl (fun b => rfl)
          (fun b a vs3 => rfl) (fun pb pa r2 => rfl) (fun eb ea r2 => rfl)
          hgs hstep hokstep
        exact ih vs1 vs2 (rpnToInfixStep rs (Tok.op Op.pow)) ps2 hnum2 hnew heval2 hok2
      | root =>
        obtain ⟨hnew, rfl⟩ := sim_step_bin Op.root vs vs1 rs ps1 (by decide) (by decide)
          (Or.inl rfl) rfl (fun b => rfl)
          (fun b a vs3 => rfl) (fun pb pa r2 => rfl) (fun eb ea r2 => rfl)
          hgs hstep hokstep
        exact ih vs1 vs2 (rpnToInfixStep rs (Tok.op Op.root)) ps2 hnum2 hnew heval2 hok2


/-! ### C6: the renderer round trip — counterexample and amended theorem -/

/-- C6 counterexample: the renderer appends `!` without parenthesising its
operand, so the RPN `[2, 3, +, !]`, which the evaluator accepts with value
`(2+3)! = 120`, renders as the string `2+3!`, which the standard infix
evaluator (postfix `!` at precedence 4) reads as `2+(3!) = 8`. -/
theorem rpn_infix_roundtrip_fails :
    evaluateRPN [Tok.num 2, Tok.num 3, Tok.op Op.add, Tok.op Op.fact] = some (JN.fin 120) ∧
      rpnToInfix [Tok.num 2, Tok.num 3, Tok.op Op.add, Tok.op Op.fact] =
        ['2', '+', '3', '!'] ∧
      parseInfix ['2', '+', '3', '!'] = some (JN.fin 8) ∧
      JN.fin (120 : Int) ≠ JN.fin (8 : Int) := by
  refine ⟨by decide, by decide, by decide, by decide⟩

/-- C6 (amended): for every RPN sequence over non-negative number tokens that
the evaluator accepts, *and* whose rendering is unambiguous (`renderOK`: every
`!` decorates a precedence-4 operand and no `root` has a precedence-3
radicand), the rendered infix string, evaluated by the standard infix
evaluator respecting the stated precedence levels and left associativity,
yields exactly the value the RPN evaluator produced. -/
theorem rpn_infix_roundtrip (rpn : List Tok) (v : JN)
    (hOK : renderOK rpn = true)
    (hnum : ∀ z, Tok.num z ∈ rpn → 0 ≤ z)
    (heval : evaluateRPN rpn = some v) :
    parseInfix (rpnToInfix rpn) = some v := by
  have hfold : List.foldlM evalStep [] rpn = some [v] := by
    unfold evaluateRPN at heval
    cases hf : rpn.foldlM evalStep [] with
    | none => rw [hf] at heval; exact Option.noConfusion heval
    | some l =>
      rw [hf] at heval
      cases l with
      | nil => exact Option.noConfusion heval
      | cons v2 l2 =>
        cases l2 with
        | nil =>
          obtain rfl : v2 = v := Option.some_inj.mp heval
          rfl
        | cons x l3 => exact Option.noConfusion heval
  have hOK2 : ∃ ps2, List.foldlM renderOKStep [] rpn = some ps2 := by
    unfold renderOK at hOK
    exact Option.isSome_iff_exists.mp hOK
  obtain ⟨ps2, hps⟩ := hOK2
  have hsim := shunt_render_sim rpn [] [v] [] ps2 hnum trivial hfold hps
  cases hfinal : List.foldl rpnToInfixStep [] rpn with
  | nil =>
    rw [hfinal] at hsim
    exact ((hsim.1 : False)).elim
  | cons e rest =>
    rw [hfinal] at hsim
    cases rest with
    | cons e2 rest2 => exact ((hsim.1.2 : False)).elim
    | nil =>
      have hge : GoodEntry e.val e.prec v := hsim.1.1
      have hrender : rpnToInfix rpn = e.val := by
        unfold rpnToInfix
        rw [hfinal]
        rfl
      rw [hrender]
      obtain ⟨hp1, hp4, toks, htok, hsh⟩ := hge
      have htk : tokenizeAux none e.val = some toks := by
        have h := htok [] trivial
        simpa [tokenizeAux, flushNum] using h
      obtain ⟨pvals, pend, hops, hp4c, hfeed, hpend⟩ := hsh
      have hfeed0 : List.foldlM shuntStep ([], []) toks = some (pvals, pend) := by
        simpa using hfeed [] [] trivial
      have hpop : popWhileGE 0 pvals pend = some ([v], []) := by
        have h := pendInv_popWhileGE 0 pend pvals v
          (fun s hs => (hops s hs).imp (fun o ho => ⟨ho.1, Nat.zero_le _⟩)) hpend [] [] trivial
        simpa using h
      unfold parseInfix
      rw [htk, Option.some_bind]
      unfold parseInfixToks
      rw [hfeed0]
      simp only [Option.some_bind]
      rw [hpop]
      rfl

/-- Closed witness for the amended C6 round trip on the RPN
`[3, !, 16, 2, root, +]`, whose rendering `3!+2 root 16` exercises the
factorial, root and plus branches; both sides evaluate to `10`. -/
theorem rpn_infix_roundtrip_witness :
    renderOK [Tok.num 3, Tok.op Op.fact, Tok.num 16, Tok.num 2, Tok.op Op.root,
        Tok.op Op.add] = true ∧
      evaluateRPN [Tok.num 3, Tok.op Op.fact, Tok.num 16, Tok.num 2, Tok.op Op.root,
        Tok.op Op.add] = some (JN.fin 10) ∧
      parseInfix (rpnToInfix [Tok.num 3, Tok.op Op.fact, Tok.num 16, Tok.num 2,
        Tok.op Op.root, Tok.op Op.add]) = some (JN.fin 10) :=
  ⟨by decide, by decide,
    rpn_infix_roundtrip
      [Tok.num 3, Tok.op Op.fact, Tok.num 16, Tok.num 2, Tok.op Op.root, Tok.op Op.add]
      (JN.fin 10) (by decide)
      (by
        intro z hz
        simp only [List.mem_cons, List.not_mem_nil, or_false] at hz
        rcases hz with h | h | h | h | h | h <;> (try cases h) <;> omega)
      (by decide)⟩

end Igk
